import Mathlib

/-!
Verification of the Interledger engine (`src/sofie_asset_transfer/interledger.py`)
against its natural-language specification.

The Python engine keeps two lists of mutable `Transfer` objects; after
`send_transfer` the same object is a member of both `transfers` (the pool)
and `transfers_sent` (inflight), and mutations through one list are visible
through the other.  The embedding makes this aliasing explicit with a heap:
`store` is the list of transfer objects ever created, and the two engine
lists hold indices (object identities) into `store`.

Asynchronous futures are embedded as an observable status
(`notDone / doneOk b / doneErr`): the Responder's `receive_transfer`
coroutine handle either is still running, returned a boolean, or raised.
The fire-and-forget `commit_transfer` / `abort_transfer` calls issued by
`process_result` are recorded in the request traces `commit_requests` /
`abort_requests`.
-/

/-- Protocol state of a transfer, from `class State(Enum)`. -/
inductive State where
  | READY
  | SENT
  | COMPLETED
  | PROCESSED
deriving DecidableEq, Repr

/-- Observable status of an asyncio future returned by
`asyncio.ensure_future(responder.receive_transfer(t))`. -/
inductive FutStatus where
  | notDone
  | doneOk (b : Bool)
  | doneErr
deriving DecidableEq, Repr

/-- A transfer object, from `class Transfer`: `future`, `result`, `state`,
`data` (the payload; only its `assetId` entry matters to the engine, embedded
as an optional number). -/
structure Transfer where
  future : Option FutStatus := none
  result : Option Bool := none
  state : State := State.READY
  data : Option Nat := none
deriving DecidableEq, Repr

/-- Engine state, from `class Interledger`: the pool list `transfers`, the
inflight list `transfers_sent`, the counter `pending`, the debug lists
`results_commit` / `results_abort`, plus the traces of commit/abort requests
issued to the Initiator (the observable effect of the fire-and-forget
`asyncio.ensure_future(self.initiator.commit_transfer(t))` calls).
`store` is the heap of transfer objects; the two lists hold indices into it. -/
structure Interledger where
  store : List Transfer
  transfers : List Nat
  transfers_sent : List Nat
  pending : Int
  results_commit : List (Option Bool)
  results_abort : List (Option Bool)
  commit_requests : List Nat
  abort_requests : List Nat
deriving DecidableEq, Repr

/-- `future.done()`: a future is done when it returned or raised.
A `SENT` transfer always has a future (set by dispatch), so the `none`
case is inert. -/
def futDone : Option FutStatus → Bool
  | some (FutStatus.doneOk _) => true
  | some FutStatus.doneErr => true
  | _ => false

/-- Python truthiness of `t.result` as used by `if t.result:`. -/
def truthy : Option Bool → Bool
  | some b => b
  | none => false

/-- State of the transfer object with identity `id`. -/
def stateOf (s : Interledger) (id : Nat) : Option State :=
  (s.store[id]?).map Transfer.state

/-- Constructor `Interledger.__init__`: empty lists, `pending = 0`. -/
def Interledger.init : Interledger :=
  { store := [], transfers := [], transfers_sent := [], pending := 0
  , results_commit := [], results_abort := []
  , commit_requests := [], abort_requests := [] }

/-- Ingest, `Interledger.receive_transfer`: awaits the Initiator's
`get_transfers()` (embedded as the already-delivered outcome `polled`:
either a raised error or a list of transfer objects), appends the received
objects to the pool when the list is non-empty, and returns their count.
An adapter error propagates before any mutation. -/
def receive_transfer (s : Interledger) (polled : Except Unit (List Transfer)) :
    Except Unit Nat × Interledger :=
  match polled with
  | Except.error e => (Except.error e, s)
  | Except.ok ts =>
    if 0 < ts.length then
      (Except.ok ts.length,
        { s with
          store := s.store ++ ts
          , transfers :=
              s.transfers ++ (List.range ts.length).map (fun k => s.store.length + k) })
    else
      (Except.ok ts.length, s)

/-- One iteration of the dispatch loop body in `Interledger.send_transfer`:
if the visited transfer is `READY`, set it to `SENT`, give it a fresh
(not-yet-done) receive future, append it to `transfers_sent` and increment
`pending`; otherwise leave the state untouched. -/
def sendStep (st : Interledger) (id : Nat) : Interledger :=
  match st.store[id]? with
  | some t =>
    if t.state = State.READY then
      { st with
        store := st.store.set id
          { t with state := State.SENT, future := some FutStatus.notDone }
        , transfers_sent := st.transfers_sent ++ [id]
        , pending := st.pending + 1 }
    else st
  | none => st

/-- Dispatch, `Interledger.send_transfer`: iterate over the pool list in
order, dispatching every `READY` transfer.  The pool list itself is not
modified. -/
def send_transfer (s : Interledger) : Interledger :=
  s.transfers.foldl sendStep s

/-- Wait predicate of collect: `asyncio.wait(futures, FIRST_COMPLETED)` on
`futures = [t.future for t in self.transfers_sent]` returns as soon as at
least one future of any inflight transfer — whatever its state — is done. -/
def wait_can_return (s : Interledger) : Bool :=
  s.transfers_sent.any fun id =>
    match s.store[id]? with
    | some t => futDone t.future
    | none => false

/-- The loop body of `Interledger.transfer_result` after the wait: visit
`transfers_sent` in order; for a `SENT` transfer whose future is done,
`t.result = t.future.result()` stores the returned boolean and the state
becomes `COMPLETED`; if the future completed exceptionally, `result()`
re-raises and the loop aborts there with the partially updated state. -/
def collectGo : List Nat → Interledger → Except Unit Unit × Interledger
  | [], st => (Except.ok (), st)
  | id :: rest, st =>
    match st.store[id]? with
    | some t =>
      if t.state = State.SENT ∧ ¬ t.state = State.COMPLETED then
        match t.future with
        | some (FutStatus.doneOk b) =>
            collectGo rest
              { st with
                store := st.store.set id
                  { t with result := some b, state := State.COMPLETED } }
        | some FutStatus.doneErr => (Except.error (), st)
        | _ => collectGo rest st
      else collectGo rest st
    | none => collectGo rest st

/-- Collect, `Interledger.transfer_result`: the post-wait loop.  The first
component is `Except.error ()` when an exceptionally completed future made
`future.result()` re-raise; the second component is the engine state at
return (or at the point the exception escaped). -/
def transfer_result (s : Interledger) : Except Unit Unit × Interledger :=
  collectGo s.transfers_sent s

/-- One iteration of the finalize loop body in `Interledger.process_result`:
for a `COMPLETED` transfer, issue `commit_transfer` (result truthy) or
`abort_transfer` (otherwise) on the Initiator without awaiting it, record
`t.result` in the matching debug list, set the state to `PROCESSED` and
decrement `pending`. -/
def processStep (st : Interledger) (id : Nat) : Interledger :=
  match st.store[id]? with
  | some t =>
    if t.state = State.COMPLETED then
      if truthy t.result then
        { st with
          store := st.store.set id { t with state := State.PROCESSED }
          , pending := st.pending - 1
          , results_commit := st.results_commit ++ [t.result]
          , commit_requests := st.commit_requests ++ [id] }
      else
        { st with
          store := st.store.set id { t with state := State.PROCESSED }
          , pending := st.pending - 1
          , results_abort := st.results_abort ++ [t.result]
          , abort_requests := st.abort_requests ++ [id] }
    else st
  | none => st

/-- Finalize, `Interledger.process_result`: iterate over `transfers_sent`
in order, finalizing every `COMPLETED` transfer. -/
def process_result (s : Interledger) : Interledger :=
  s.transfers_sent.foldl processStep s

/-- `list(set(xs).intersection(ys))`: the distinct elements common to both
query results (one canonical order; the claims are order-independent). -/
def interIds (xs ys : List Nat) : List Nat :=
  xs.dedup.filter fun i => i ∈ ys

/-- `StateInterledger.restore_pending_transfers_ready`: one fresh `READY`
transfer per asset ID reported `TRANSFER_OUT` by the Initiator and
`NOT_HERE` by the Responder. -/
def restore_pending_transfers_ready (tInit tResp : List Nat) : List Transfer :=
  (interIds tInit tResp).map fun i =>
    { future := none, result := none, state := State.READY, data := some i }

/-- `StateInterledger.restore_pending_transfers_sent`: one `COMPLETED`
transfer with `result = True` per asset ID reported `TRANSFER_OUT` by the
Initiator and `HERE` by the Responder. -/
def restore_pending_transfers_sent (tInit tResp : List Nat) : List Transfer :=
  (interIds tInit tResp).map fun i =>
    { future := none, result := some true, state := State.COMPLETED, data := some i }

/-- Constructor `StateInterledger.__init__` given the three query results
(Initiator `TRANSFER_OUT`, Responder `NOT_HERE`, Responder `HERE`): the
pool is the restored `READY` transfers, the inflight list the restored
`COMPLETED` ones, and `pending` is incremented by the inflight count. -/
def StateInterledger.init (initTO respNH respHERE : List Nat) : Interledger :=
  let ready := restore_pending_transfers_ready initTO respNH
  let sent := restore_pending_transfers_sent initTO respHERE
  { store := ready ++ sent
  , transfers := List.range ready.length
  , transfers_sent := (List.range sent.length).map fun k => ready.length + k
  , pending := (sent.length : Int)
  , results_commit := [], results_abort := []
  , commit_requests := [], abort_requests := [] }

/-- Number of inflight transfers in state `SENT` or `COMPLETED` (the
specification's set `{T ∈ inflight : T.state ∈ {SENT, COMPLETED}}`). -/
def sentOrCompAt (store : List Transfer) (id : Nat) : Bool :=
  match store[id]? with
  | some t => decide (t.state = State.SENT ∨ t.state = State.COMPLETED)
  | none => false

/-- The specification's pending invariant:
`pending = |{T ∈ inflight : T.state ∈ {SENT, COMPLETED}}|`. -/
def pendingInv (s : Interledger) : Prop :=
  s.pending = ((s.transfers_sent.filter (sentOrCompAt s.store)).length : Int)

/-- Readiness of the object at `id` (dispatch condition). -/
def isReadyAt (store : List Transfer) (id : Nat) : Bool :=
  match store[id]? with
  | some t => decide (t.state = State.READY)
  | none => false

/-- Completion of the object at `id` (finalize condition). -/
def isCompletedAt (store : List Transfer) (id : Nat) : Bool :=
  match store[id]? with
  | some t => decide (t.state = State.COMPLETED)
  | none => false

/-- Truthiness of the result of the object at `id`. -/
def truthyAt (store : List Transfer) (id : Nat) : Bool :=
  match store[id]? with
  | some t => truthy t.result
  | none => false

/-- Result field of the object at `id`. -/
def resultAt (store : List Transfer) (id : Nat) : Option Bool :=
  match store[id]? with
  | some t => t.result
  | none => none

/-- Successor in the protocol order `READY → SENT → COMPLETED → PROCESSED`. -/
def nextState : State → Option State
  | State.READY => some State.SENT
  | State.SENT => some State.COMPLETED
  | State.COMPLETED => some State.PROCESSED
  | State.PROCESSED => none

/-- Numeric rank of a protocol state (the enum values 1–4). -/
def State.rank : State → Nat
  | State.READY => 1
  | State.SENT => 2
  | State.COMPLETED => 3
  | State.PROCESSED => 4

/-- Future evolution permitted to the environment: a future keeps its value,
except that a not-yet-done future may complete. -/
def futAdv (f g : Option FutStatus) : Prop :=
  f = g ∨ (f = some FutStatus.notDone ∧ futDone g = true)

/-- One engine stage operation, as invoked by the main loop `run`.
The ingest constructor carries the Initiator contract: delivered transfers
are fresh objects in state `READY`. -/
inductive EngineStep : Interledger → Interledger → Prop where
  | ingest (s : Interledger) (ts : List Transfer)
      (h : ∀ t ∈ ts, t.state = State.READY) :
      EngineStep s (receive_transfer s (Except.ok ts)).2
  | dispatch (s : Interledger) : EngineStep s (send_transfer s)
  | collect (s : Interledger) : EngineStep s (transfer_result s).2
  | finalize (s : Interledger) : EngineStep s (process_result s)

/-- One environment step: the asynchronous receive futures may progress
(a not-done future completes), leaving every other transfer field intact. -/
inductive EnvStep : Interledger → Interledger → Prop where
  | mk (s : Interledger) (store' : List Transfer)
      (hlen : store'.length = s.store.length)
      (hadv : ∀ (j : Nat) (t : Transfer), s.store[j]? = some t →
        ∃ t' : Transfer, store'[j]? = some t' ∧
          t'.state = t.state ∧ t'.result = t.result ∧ t'.data = t.data ∧
          futAdv t.future t'.future) :
      EnvStep s { s with store := store' }

/-- A step of a run: an engine stage operation or environment progress. -/
inductive Step : Interledger → Interledger → Prop where
  | engine {s s' : Interledger} : EngineStep s s' → Step s s'
  | env {s s' : Interledger} : EnvStep s s' → Step s s'

/-- Futures the collect stage waits on:
`futures = [t.future for t in self.transfers_sent]`. -/
def waitFutures (s : Interledger) : List (Option FutStatus) :=
  s.transfers_sent.map fun id => (s.store[id]?).bind Transfer.future

/-- The `SENT` version of a dispatched transfer. -/
def sentVersion (t : Transfer) : Transfer :=
  { t with state := State.SENT, future := some FutStatus.notDone }

/-- The `COMPLETED` version of a collected transfer whose future returned `b`. -/
def completedVersion (t : Transfer) (b : Bool) : Transfer :=
  { t with result := some b, state := State.COMPLETED }

/-- The `PROCESSED` version of a finalized transfer. -/
def processedVersion (t : Transfer) : Transfer :=
  { t with state := State.PROCESSED }

/-- Data payload (`assetId`) of the transfer object at `id`. -/
def dataAt (store : List Transfer) (id : Nat) : Option Nat :=
  match store[id]? with
  | some t => t.data
  | none => none

/-- A one-transfer engine state: a single `READY` transfer sits in the pool. -/
def exPool : Interledger :=
  { store := [{ future := none, result := none, state := State.READY, data := some 7 }]
  , transfers := [0], transfers_sent := [], pending := 0
  , results_commit := [], results_abort := []
  , commit_requests := [], abort_requests := [] }

/-- An engine state whose single inflight transfer is `SENT` and whose
receive future completed exceptionally. -/
def exErr : Interledger :=
  { store := [{ future := some FutStatus.doneErr, result := none
              , state := State.SENT, data := some 5 }]
  , transfers := [0], transfers_sent := [0], pending := 1
  , results_commit := [], results_abort := []
  , commit_requests := [], abort_requests := [] }

/-- An engine state with two `COMPLETED` transfers (one successful, one
failed) and one still-`SENT` transfer, all inflight. -/
def exFinal : Interledger :=
  { store :=
      [ { future := some (FutStatus.doneOk true), result := some true
        , state := State.COMPLETED, data := some 1 }
      , { future := some (FutStatus.doneOk false), result := some false
        , state := State.COMPLETED, data := some 2 }
      , { future := some FutStatus.notDone, result := none
        , state := State.SENT, data := some 3 } ]
  , transfers := [0, 1, 2], transfers_sent := [0, 1, 2], pending := 3
  , results_commit := [], results_abort := []
  , commit_requests := [], abort_requests := [] }

/-- An engine state where the only done future belongs to a `PROCESSED`
transfer while a `SENT` transfer is still pending. -/
def exWait : Interledger :=
  { store :=
      [ { future := some (FutStatus.doneOk true), result := some true
        , state := State.PROCESSED, data := some 1 }
      , { future := some FutStatus.notDone, result := none
        , state := State.SENT, data := some 2 } ]
  , transfers := [0, 1], transfers_sent := [0, 1], pending := 1
  , results_commit := [], results_abort := []
  , commit_requests := [], abort_requests := [] }

/-- An engine state with one `SENT` transfer whose future returned `true`
and one whose future is still running. -/
def exCollect : Interledger :=
  { store :=
      [ { future := some (FutStatus.doneOk true), result := none
        , state := State.SENT, data := some 1 }
      , { future := some FutStatus.notDone, result := none
        , state := State.SENT, data := some 2 } ]
  , transfers := [0, 1], transfers_sent := [0, 1], pending := 2
  , results_commit := [], results_abort := []
  , commit_requests := [], abort_requests := [] }

lemma sendStep_none {st : Interledger} {id : Nat} (h : st.store[id]? = none) :
    sendStep st id = st := by
  unfold sendStep
  rw [h]

lemma sendStep_not_ready {st : Interledger} {id : Nat} {t : Transfer}
    (h : st.store[id]? = some t) (ht : ¬ t.state = State.READY) :
    sendStep st id = st := by
  unfold sendStep
  rw [h]
  simp [ht]

lemma sendStep_ready {st : Interledger} {id : Nat} {t : Transfer}
    (h : st.store[id]? = some t) (ht : t.state = State.READY) :
    sendStep st id =
      { st with
        store := st.store.set id (sentVersion t)
        , transfers_sent := st.transfers_sent ++ [id]
        , pending := st.pending + 1 } := by
  unfold sendStep
  rw [h]
  simp [ht, sentVersion]

lemma sendStep_frame (st : Interledger) (id : Nat) :
    (sendStep st id).transfers = st.transfers ∧
    (sendStep st id).results_commit = st.results_commit ∧
    (sendStep st id).results_abort = st.results_abort ∧
    (sendStep st id).commit_requests = st.commit_requests ∧
    (sendStep st id).abort_requests = st.abort_requests ∧
    (sendStep st id).store.length = st.store.length := by
  cases h : st.store[id]? with
  | none => rw [sendStep_none h]; exact ⟨rfl, rfl, rfl, rfl, rfl, rfl⟩
  | some t =>
    by_cases ht : t.state = State.READY
    · rw [sendStep_ready h ht]
      refine ⟨rfl, rfl, rfl, rfl, rfl, ?_⟩
      simp
    · rw [sendStep_not_ready h ht]
      exact ⟨rfl, rfl, rfl, rfl, rfl, rfl⟩

lemma sendStep_store_ne {st : Interledger} {id : Nat} (j : Nat) (hj : j ≠ id) :
    (sendStep st id).store[j]? = st.store[j]? := by
  cases h : st.store[id]? with
  | none => rw [sendStep_none h]
  | some t =>
    by_cases ht : t.state = State.READY
    · rw [sendStep_ready h ht]
      exact List.getElem?_set_ne (fun he => hj he.symm)
    · rw [sendStep_not_ready h ht]

lemma sendStep_store_self {st : Interledger} {id : Nat} {t : Transfer}
    (h : st.store[id]? = some t) (ht : t.state = State.READY) :
    (sendStep st id).store[id]? = some (sentVersion t) := by
  rw [sendStep_ready h ht]
  have hlt : id < st.store.length := (List.getElem?_eq_some.mp h).1
  simp [List.getElem?_set_self, hlt]

lemma send_go_frame (l : List Nat) (st : Interledger) :
    ((l.foldl sendStep st).transfers = st.transfers ∧
     (l.foldl sendStep st).results_commit = st.results_commit ∧
     (l.foldl sendStep st).results_abort = st.results_abort ∧
     (l.foldl sendStep st).commit_requests = st.commit_requests ∧
     (l.foldl sendStep st).abort_requests = st.abort_requests ∧
     (l.foldl sendStep st).store.length = st.store.length) := by
  induction l generalizing st with
  | nil => exact ⟨rfl, rfl, rfl, rfl, rfl, rfl⟩
  | cons id rest ih =>
    have h1 := sendStep_frame st id
    have h2 := ih (sendStep st id)
    simp only [List.foldl_cons]
    exact ⟨h2.1.trans h1.1, h2.2.1.trans h1.2.1, h2.2.2.1.trans h1.2.2.1,
      h2.2.2.2.1.trans h1.2.2.2.1, h2.2.2.2.2.1.trans h1.2.2.2.2.1,
      h2.2.2.2.2.2.trans h1.2.2.2.2.2⟩

lemma send_go_store_ne (l : List Nat) (st : Interledger) (j : Nat) (hj : j ∉ l) :
    (l.foldl sendStep st).store[j]? = st.store[j]? := by
  induction l generalizing st with
  | nil => rfl
  | cons id rest ih =>
    simp only [List.foldl_cons]
    have hji : j ≠ id := fun he => hj (he ▸ List.mem_cons_self id rest)
    have hjr : j ∉ rest := fun hm => hj (List.mem_cons_of_mem id hm)
    rw [ih (sendStep st id) hjr, sendStep_store_ne j hji]

lemma send_go_append_exists (l : List Nat) (st : Interledger) :
    ∃ v, (l.foldl sendStep st).transfers_sent = st.transfers_sent ++ v := by
  induction l generalizing st with
  | nil => exact ⟨[], by simp⟩
  | cons id rest ih =>
    simp only [List.foldl_cons]
    obtain ⟨v, hv⟩ := ih (sendStep st id)
    cases h : st.store[id]? with
    | none => exact ⟨v, by rw [hv, sendStep_none h]⟩
    | some t =>
      by_cases ht : t.state = State.READY
      · refine ⟨id :: v, ?_⟩
        rw [hv, sendStep_ready h ht]
        simp
      · exact ⟨v, by rw [hv, sendStep_not_ready h ht]⟩

lemma send_go_mono (l : List Nat) (st : Interledger) (j : Nat) (t : Transfer)
    (h : st.store[j]? = some t) :
    (l.foldl sendStep st).store[j]? = some t ∨
    (t.state = State.READY ∧
      (l.foldl sendStep st).store[j]? = some (sentVersion t)) := by
  induction l generalizing st t with
  | nil => exact Or.inl h
  | cons id rest ih =>
    simp only [List.foldl_cons]
    by_cases hji : j = id
    · subst hji
      by_cases ht : t.state = State.READY
      · have h1 := sendStep_store_self h ht
        rcases ih (sendStep st j) (sentVersion t) h1 with h2 | h2
        · exact Or.inr ⟨ht, h2⟩
        · exact absurd h2.1 (by simp [sentVersion])
      · rw [sendStep_not_ready h ht]
        exact ih st t h
    · have h1 : (sendStep st id).store[j]? = some t := by
        rw [sendStep_store_ne j hji]; exact h
      exact ih (sendStep st id) t h1

lemma send_go_sent_mem (l : List Nat) (st : Interledger) (j : Nat)
    (hj : j ∈ (l.foldl sendStep st).transfers_sent) :
    j ∈ st.transfers_sent ∨
      ∃ t, st.store[j]? = some t ∧ t.state = State.READY := by
  induction l generalizing st with
  | nil => exact Or.inl hj
  | cons id rest ih =>
    simp only [List.foldl_cons] at hj
    rcases ih (sendStep st id) hj with hm | hm
    · cases h : st.store[id]? with
      | none => rw [sendStep_none h] at hm; exact Or.inl hm
      | some t =>
        by_cases ht : t.state = State.READY
        · rw [sendStep_ready h ht] at hm
          simp only [List.mem_append, List.mem_singleton] at hm
          rcases hm with hm | hm
          · exact Or.inl hm
          · subst hm
            exact Or.inr ⟨t, h, ht⟩
        · rw [sendStep_not_ready h ht] at hm; exact Or.inl hm
    · obtain ⟨t, hget, ht⟩ := hm
      by_cases hji : j = id
      · subst hji
        cases h : st.store[j]? with
        | none => rw [sendStep_none h, h] at hget; exact absurd hget (by simp)
        | some u =>
          by_cases hu : u.state = State.READY
          · exact Or.inr ⟨u, rfl, hu⟩
          · rw [sendStep_not_ready h hu, h] at hget
            injection hget with he
            subst he
            exact absurd ht hu
      · rw [sendStep_store_ne j hji] at hget
        exact Or.inr ⟨t, hget, ht⟩

lemma isReadyAt_set_ne {store : List Transfer} {id : Nat} {u : Transfer}
    (j : Nat) (hji : j ≠ id) :
    isReadyAt (store.set id u) j = isReadyAt store j := by
  unfold isReadyAt
  rw [List.getElem?_set_ne (fun he => hji he.symm)]

lemma send_go_sent_append (l : List Nat) (st : Interledger) (hnd : l.Nodup) :
    (l.foldl sendStep st).transfers_sent =
      st.transfers_sent ++ l.filter (isReadyAt st.store) := by
  induction l generalizing st with
  | nil => simp
  | cons id rest ih =>
    obtain ⟨hid, hnd'⟩ := List.nodup_cons.mp hnd
    simp only [List.foldl_cons]
    cases h : st.store[id]? with
    | none =>
      rw [sendStep_none h, ih st hnd', List.filter_cons]
      have hr : isReadyAt st.store id = false := by unfold isReadyAt; rw [h]
      rw [hr]
      simp
    | some t =>
      by_cases ht : t.state = State.READY
      · rw [sendStep_ready h ht, ih _ hnd']
        have hcongr :
            rest.filter (isReadyAt (st.store.set id (sentVersion t))) =
              rest.filter (isReadyAt st.store) := by
          apply List.filter_congr
          intro j hj
          exact isReadyAt_set_ne j (fun he => hid (he ▸ hj))
        have hr : isReadyAt st.store id = true := by
          unfold isReadyAt; rw [h]; simp [ht]
        rw [List.filter_cons, hr]
        simp only [if_true]
        rw [hcongr]
        simp
      · rw [sendStep_not_ready h ht, ih st hnd', List.filter_cons]
        have hr : isReadyAt st.store id = false := by
          unfold isReadyAt; rw [h]; simp [ht]
        rw [hr]
        simp

lemma send_go_pending (l : List Nat) (st : Interledger) (hnd : l.Nodup) :
    (l.foldl sendStep st).pending =
      st.pending + ((l.filter (isReadyAt st.store)).length : Int) := by
  induction l generalizing st with
  | nil => simp
  | cons id rest ih =>
    obtain ⟨hid, hnd'⟩ := List.nodup_cons.mp hnd
    simp only [List.foldl_cons]
    cases h : st.store[id]? with
    | none =>
      rw [sendStep_none h, ih st hnd', List.filter_cons]
      have hr : isReadyAt st.store id = false := by unfold isReadyAt; rw [h]
      rw [hr]
      simp
    | some t =>
      by_cases ht : t.state = State.READY
      · rw [sendStep_ready h ht, ih _ hnd']
        have hcongr :
            rest.filter (isReadyAt (st.store.set id (sentVersion t))) =
              rest.filter (isReadyAt st.store) := by
          apply List.filter_congr
          intro j hj
          exact isReadyAt_set_ne j (fun he => hid (he ▸ hj))
        have hr : isReadyAt st.store id = true := by
          unfold isReadyAt; rw [h]; simp [ht]
        rw [List.filter_cons, hr]
        simp only [if_true]
        rw [hcongr]
        simp [List.length_cons]
        ring
      · rw [sendStep_not_ready h ht, ih st hnd', List.filter_cons]
        have hr : isReadyAt st.store id = false := by
          unfold isReadyAt; rw [h]; simp [ht]
        rw [hr]
        simp

lemma send_go_store_mem (l : List Nat) (st : Interledger) (hnd : l.Nodup)
    (j : Nat) (hj : j ∈ l) (t : Transfer) (h : st.store[j]? = some t) :
    (t.state = State.READY →
      (l.foldl sendStep st).store[j]? = some (sentVersion t)) ∧
    (¬ t.state = State.READY → (l.foldl sendStep st).store[j]? = some t) := by
  induction l generalizing st with
  | nil => exact absurd hj (List.not_mem_nil j)
  | cons id rest ih =>
    obtain ⟨hid, hnd'⟩ := List.nodup_cons.mp hnd
    simp only [List.foldl_cons]
    rcases List.mem_cons.mp hj with rfl | hjr
    · constructor
      · intro ht
        have h1 := sendStep_store_self h ht
        rw [send_go_store_ne rest (sendStep st j) j hid]
        exact h1
      · intro ht
        rw [send_go_store_ne rest (sendStep st j) j hid, sendStep_not_ready h ht]
        exact h
    · have hji : j ≠ id := fun he => hid (he ▸ hjr)
      have h1 : (sendStep st id).store[j]? = some t := by
        rw [sendStep_store_ne j hji]; exact h
      exact ih (sendStep st id) hnd' hjr h1

lemma collectGo_cons_none {st : Interledger} {id : Nat} {rest : List Nat}
    (h : st.store[id]? = none) :
    collectGo (id :: rest) st = collectGo rest st := by
  conv_lhs => rw [collectGo]
  simp only [h]

lemma collectGo_cons_skip {st : Interledger} {id : Nat} {rest : List Nat}
    {t : Transfer} (h : st.store[id]? = some t)
    (hc : ¬ (t.state = State.SENT ∧ ¬ t.state = State.COMPLETED)) :
    collectGo (id :: rest) st = collectGo rest st := by
  conv_lhs => rw [collectGo]
  simp only [h]
  rw [if_neg hc]

lemma collectGo_cons_fnone {st : Interledger} {id : Nat} {rest : List Nat}
    {t : Transfer} (h : st.store[id]? = some t)
    (hc : t.state = State.SENT ∧ ¬ t.state = State.COMPLETED)
    (hf : t.future = none) :
    collectGo (id :: rest) st = collectGo rest st := by
  conv_lhs => rw [collectGo]
  simp only [h]
  rw [if_pos hc]
  simp only [hf]

lemma collectGo_cons_notDone {st : Interledger} {id : Nat} {rest : List Nat}
    {t : Transfer} (h : st.store[id]? = some t)
    (hc : t.state = State.SENT ∧ ¬ t.state = State.COMPLETED)
    (hf : t.future = some FutStatus.notDone) :
    collectGo (id :: rest) st = collectGo rest st := by
  conv_lhs => rw [collectGo]
  simp only [h]
  rw [if_pos hc]
  simp only [hf]

lemma collectGo_cons_ok {st : Interledger} {id : Nat} {rest : List Nat}
    {t : Transfer} {b : Bool} (h : st.store[id]? = some t)
    (hc : t.state = State.SENT ∧ ¬ t.state = State.COMPLETED)
    (hf : t.future = some (FutStatus.doneOk b)) :
    collectGo (id :: rest) st =
      collectGo rest { st with store := st.store.set id (completedVersion t b) } := by
  conv_lhs => rw [collectGo]
  simp only [h]
  rw [if_pos hc]
  simp only [hf]
  simp [completedVersion, hf]

lemma collectGo_cons_err {st : Interledger} {id : Nat} {rest : List Nat}
    {t : Transfer} (h : st.store[id]? = some t)
    (hc : t.state = State.SENT ∧ ¬ t.state = State.COMPLETED)
    (hf : t.future = some FutStatus.doneErr) :
    collectGo (id :: rest) st = (Except.error (), st) := by
  conv_lhs => rw [collectGo]
  simp only [h]
  rw [if_pos hc]
  simp only [hf]

lemma collect_go_frame (l : List Nat) (st : Interledger) :
    (collectGo l st).2.transfers = st.transfers ∧
    (collectGo l st).2.transfers_sent = st.transfers_sent ∧
    (collectGo l st).2.pending = st.pending ∧
    (collectGo l st).2.results_commit = st.results_commit ∧
    (collectGo l st).2.results_abort = st.results_abort ∧
    (collectGo l st).2.commit_requests = st.commit_requests ∧
    (collectGo l st).2.abort_requests = st.abort_requests ∧
    (collectGo l st).2.store.length = st.store.length := by
  induction l generalizing st with
  | nil => exact ⟨rfl, rfl, rfl, rfl, rfl, rfl, rfl, rfl⟩
  | cons id rest ih =>
    cases h : st.store[id]? with
    | none => rw [collectGo_cons_none h]; exact ih st
    | some t =>
      by_cases hc : t.state = State.SENT ∧ ¬ t.state = State.COMPLETED
      · cases hf : t.future with
        | none => rw [collectGo_cons_fnone h hc hf]; exact ih st
        | some fs =>
          cases fs with
          | notDone => rw [collectGo_cons_notDone h hc hf]; exact ih st
          | doneOk b =>
            rw [collectGo_cons_ok h hc hf]
            have h2 := ih { st with store := st.store.set id (completedVersion t b) }
            refine ⟨h2.1, h2.2.1, h2.2.2.1, h2.2.2.2.1, h2.2.2.2.2.1,
              h2.2.2.2.2.2.1, h2.2.2.2.2.2.2.1, h2.2.2.2.2.2.2.2.trans ?_⟩
            simp
          | doneErr =>
            rw [collectGo_cons_err h hc hf]
            exact ⟨rfl, rfl, rfl, rfl, rfl, rfl, rfl, rfl⟩
      · rw [collectGo_cons_skip h hc]; exact ih st

lemma collect_go_mono (l : List Nat) (st : Interledger) (j : Nat) (t : Transfer)
    (h : st.store[j]? = some t) :
    (collectGo l st).2.store[j]? = some t ∨
    (t.state = State.SENT ∧ ∃ b, t.future = some (FutStatus.doneOk b) ∧
      (collectGo l st).2.store[j]? = some (completedVersion t b)) := by
  induction l generalizing st t with
  | nil => exact Or.inl h
  | cons id rest ih =>
    cases hg : st.store[id]? with
    | none => rw [collectGo_cons_none hg]; exact ih st t h
    | some u =>
      by_cases hc : u.state = State.SENT ∧ ¬ u.state = State.COMPLETED
      · cases hf : u.future with
        | none => rw [collectGo_cons_fnone hg hc hf]; exact ih st t h
        | some fs =>
          cases fs with
          | notDone => rw [collectGo_cons_notDone hg hc hf]; exact ih st t h
          | doneOk b =>
            rw [collectGo_cons_ok hg hc hf]
            by_cases hji : j = id
            · subst hji
              have hut : t = u := by rw [h] at hg; injection hg
              subst hut
              have hlt : j < st.store.length := (List.getElem?_eq_some.mp h).1
              have h1 : ({ st with store := st.store.set j (completedVersion t b) }
                  : Interledger).store[j]? = some (completedVersion t b) := by
                simp [List.getElem?_set_self, hlt]
              rcases ih _ (completedVersion t b) h1 with h2 | h2
              · exact Or.inr ⟨hc.1, b, hf, h2⟩
              · exact absurd h2.1 (by simp [completedVersion])
            · have h1 : ({ st with store := st.store.set id (completedVersion u b) }
                  : Interledger).store[j]? = some t := by
                simpa [List.getElem?_set_ne (fun he => hji he.symm)] using h
              exact ih _ t h1
          | doneErr =>
            rw [collectGo_cons_err hg hc hf]
            exact Or.inl h
      · rw [collectGo_cons_skip hg hc]; exact ih st t h

lemma processStep_none {st : Interledger} {id : Nat} (h : st.store[id]? = none) :
    processStep st id = st := by
  unfold processStep
  rw [h]

lemma processStep_not_completed {st : Interledger} {id : Nat} {t : Transfer}
    (h : st.store[id]? = some t) (ht : ¬ t.state = State.COMPLETED) :
    processStep st id = st := by
  unfold processStep
  rw [h]
  simp [ht]

lemma processStep_commit {st : Interledger} {id : Nat} {t : Transfer}
    (h : st.store[id]? = some t) (ht : t.state = State.COMPLETED)
    (hr : truthy t.result = true) :
    processStep st id =
      { st with
        store := st.store.set id (processedVersion t)
        , pending := st.pending - 1
        , results_commit := st.results_commit ++ [t.result]
        , commit_requests := st.commit_requests ++ [id] } := by
  unfold processStep
  rw [h]
  simp [ht, hr, processedVersion]

lemma processStep_abort {st : Interledger} {id : Nat} {t : Transfer}
    (h : st.store[id]? = some t) (ht : t.state = State.COMPLETED)
    (hr : truthy t.result = false) :
    processStep st id =
      { st with
        store := st.store.set id (processedVersion t)
        , pending := st.pending - 1
        , results_abort := st.results_abort ++ [t.result]
        , abort_requests := st.abort_requests ++ [id] } := by
  unfold processStep
  rw [h]
  simp [ht, hr, processedVersion]

lemma processStep_lists (st : Interledger) (id : Nat) :
    (processStep st id).transfers = st.transfers ∧
    (processStep st id).transfers_sent = st.transfers_sent ∧
    (processStep st id).store.length = st.store.length := by
  cases h : st.store[id]? with
  | none => rw [processStep_none h]; exact ⟨rfl, rfl, rfl⟩
  | some t =>
    by_cases ht : t.state = State.COMPLETED
    · cases hr : truthy t.result with
      | true => rw [processStep_commit h ht hr]; exact ⟨rfl, rfl, by simp⟩
      | false => rw [processStep_abort h ht hr]; exact ⟨rfl, rfl, by simp⟩
    · rw [processStep_not_completed h ht]; exact ⟨rfl, rfl, rfl⟩

lemma processStep_store_ne {st : Interledger} {id : Nat} (j : Nat) (hj : j ≠ id) :
    (processStep st id).store[j]? = st.store[j]? := by
  cases h : st.store[id]? with
  | none => rw [processStep_none h]
  | some t =>
    by_cases ht : t.state = State.COMPLETED
    · cases hr : truthy t.result with
      | true =>
        rw [processStep_commit h ht hr]
        exact List.getElem?_set_ne (fun he => hj he.symm)
      | false =>
        rw [processStep_abort h ht hr]
        exact List.getElem?_set_ne (fun he => hj he.symm)
    · rw [processStep_not_completed h ht]

lemma process_go_lists (l : List Nat) (st : Interledger) :
    (l.foldl processStep st).transfers = st.transfers ∧
    (l.foldl processStep st).transfers_sent = st.transfers_sent ∧
    (l.foldl processStep st).store.length = st.store.length := by
  induction l generalizing st with
  | nil => exact ⟨rfl, rfl, rfl⟩
  | cons id rest ih =>
    have h1 := processStep_lists st id
    have h2 := ih (processStep st id)
    simp only [List.foldl_cons]
    exact ⟨h2.1.trans h1.1, h2.2.1.trans h1.2.1, h2.2.2.trans h1.2.2⟩

lemma process_go_store_ne (l : List Nat) (st : Interledger) (j : Nat) (hj : j ∉ l) :
    (l.foldl processStep st).store[j]? = st.store[j]? := by
  induction l generalizing st with
  | nil => rfl
  | cons id rest ih =>
    simp only [List.foldl_cons]
    have hji : j ≠ id := fun he => hj (he ▸ List.mem_cons_self id rest)
    have hjr : j ∉ rest := fun hm => hj (List.mem_cons_of_mem id hm)
    rw [ih (processStep st id) hjr, processStep_store_ne j hji]

lemma process_go_mono (l : List Nat) (st : Interledger) (j : Nat) (t : Transfer)
    (h : st.store[j]? = some t) :
    (l.foldl processStep st).store[j]? = some t ∨
    (t.state = State.COMPLETED ∧
      (l.foldl processStep st).store[j]? = some (processedVersion t)) := by
  induction l generalizing st t with
  | nil => exact Or.inl h
  | cons id rest ih =>
    simp only [List.foldl_cons]
    by_cases hji : j = id
    · subst hji
      by_cases ht : t.state = State.COMPLETED
      · have hlt : j < st.store.length := (List.getElem?_eq_some.mp h).1
        have h1 : (processStep st j).store[j]? = some (processedVersion t) := by
          cases hr : truthy t.result with
          | true => rw [processStep_commit h ht hr]; simp [List.getElem?_set_self, hlt]
          | false => rw [processStep_abort h ht hr]; simp [List.getElem?_set_self, hlt]
        rcases ih (processStep st j) (processedVersion t) h1 with h2 | h2
        · exact Or.inr ⟨ht, h2⟩
        · exact absurd h2.1 (by simp [processedVersion])
      · rw [processStep_not_completed h ht]
        exact ih st t h
    · have h1 : (processStep st id).store[j]? = some t := by
        rw [processStep_store_ne j hji]; exact h
      exact ih (processStep st id) t h1

lemma isCompletedAt_step_ne {st : Interledger} {id : Nat} (j : Nat) (hj : j ≠ id) :
    isCompletedAt (processStep st id).store j = isCompletedAt st.store j := by
  unfold isCompletedAt
  rw [processStep_store_ne j hj]

lemma truthyAt_step_ne {st : Interledger} {id : Nat} (j : Nat) (hj : j ≠ id) :
    truthyAt (processStep st id).store j = truthyAt st.store j := by
  unfold truthyAt
  rw [processStep_store_ne j hj]

lemma resultAt_step_ne {st : Interledger} {id : Nat} (j : Nat) (hj : j ≠ id) :
    resultAt (processStep st id).store j = resultAt st.store j := by
  unfold resultAt
  rw [processStep_store_ne j hj]

lemma process_go_char (l : List Nat) (st : Interledger) (hnd : l.Nodup) :
    (l.foldl processStep st).pending =
      st.pending - ((l.filter (isCompletedAt st.store)).length : Int) ∧
    (l.foldl processStep st).commit_requests =
      st.commit_requests ++
        l.filter (fun id => isCompletedAt st.store id && truthyAt st.store id) ∧
    (l.foldl processStep st).abort_requests =
      st.abort_requests ++
        l.filter (fun id => isCompletedAt st.store id && !truthyAt st.store id) ∧
    (l.foldl processStep st).results_commit =
      st.results_commit ++
        (l.filter (fun id => isCompletedAt st.store id && truthyAt st.store id)).map
          (resultAt st.store) ∧
    (l.foldl processStep st).results_abort =
      st.results_abort ++
        (l.filter (fun id => isCompletedAt st.store id && !truthyAt st.store id)).map
          (resultAt st.store) := by
  induction l generalizing st with
  | nil => exact ⟨by simp, by simp, by simp, by simp, by simp⟩
  | cons id rest ih =>
    obtain ⟨hid, hnd'⟩ := List.nodup_cons.mp hnd
    simp only [List.foldl_cons]
    have hCc : rest.filter (isCompletedAt (processStep st id).store) =
        rest.filter (isCompletedAt st.store) := by
      apply List.filter_congr
      intro j hj
      exact isCompletedAt_step_ne j (fun he => hid (he ▸ hj))
    have hTc : rest.filter
          (fun j => isCompletedAt (processStep st id).store j &&
            truthyAt (processStep st id).store j) =
        rest.filter (fun j => isCompletedAt st.store j && truthyAt st.store j) := by
      apply List.filter_congr
      intro j hj
      have hji : j ≠ id := fun he => hid (he ▸ hj)
      rw [isCompletedAt_step_ne j hji, truthyAt_step_ne j hji]
    have hFc : rest.filter
          (fun j => isCompletedAt (processStep st id).store j &&
            !truthyAt (processStep st id).store j) =
        rest.filter (fun j => isCompletedAt st.store j && !truthyAt st.store j) := by
      apply List.filter_congr
      intro j hj
      have hji : j ≠ id := fun he => hid (he ▸ hj)
      rw [isCompletedAt_step_ne j hji, truthyAt_step_ne j hji]
    have hMc : ∀ (ll : List Nat), (∀ j ∈ ll, j ∈ rest) →
        ll.map (resultAt (processStep st id).store) = ll.map (resultAt st.store) := by
      intro ll hll
      apply List.map_congr_left
      intro j hj
      exact resultAt_step_ne j (fun he => hid (he ▸ hll j hj))
    have hsub : ∀ (p : Nat → Bool) (j : Nat), j ∈ rest.filter p → j ∈ rest :=
      fun p j hj => (List.mem_filter.mp hj).1
    have hihres := ih (processStep st id) hnd'
    cases h : st.store[id]? with
    | none =>
      have hC : isCompletedAt st.store id = false := by unfold isCompletedAt; rw [h]
      rw [processStep_none h] at hihres
      refine ⟨?_, ?_, ?_, ?_, ?_⟩ <;>
        · rw [processStep_none h]
          simp only [List.filter_cons, hC, Bool.false_and, Bool.false_eq_true, if_false]
          first
            | exact hihres.1
            | exact hihres.2.1
            | exact hihres.2.2.1
            | exact hihres.2.2.2.1
            | exact hihres.2.2.2.2
    | some t =>
      by_cases ht : t.state = State.COMPLETED
      · have hC : isCompletedAt st.store id = true := by
          unfold isCompletedAt; rw [h]; simp [ht]
        have hRes : resultAt st.store id = t.result := by unfold resultAt; rw [h]
        cases hr : truthy t.result with
        | true =>
          have hT : truthyAt st.store id = true := by
            unfold truthyAt; rw [h]; exact hr
          have hstep := processStep_commit h ht hr
          refine ⟨?_, ?_, ?_, ?_, ?_⟩
          · rw [hihres.1, hCc, hstep]
            simp only [List.filter_cons, hC, if_true, List.length_cons]
            push_cast
            ring
          · rw [hihres.2.1, hTc, hstep]
            simp only [List.filter_cons, hC, hT, Bool.and_self, if_true]
            simp
          · rw [hihres.2.2.1, hFc, hstep]
            simp only [List.filter_cons, hC, hT]
            simp
          · rw [hihres.2.2.2.1, hTc,
              hMc _ (hsub (fun j => isCompletedAt st.store j && truthyAt st.store j)),
              hstep]
            simp only [List.filter_cons, hC, hT, Bool.and_self, if_true, List.map_cons,
              hRes]
            simp
          · rw [hihres.2.2.2.2, hFc,
              hMc _ (hsub (fun j => isCompletedAt st.store j && !truthyAt st.store j)),
              hstep]
            simp only [List.filter_cons, hC, hT]
            simp
        | false =>
          have hT : truthyAt st.store id = false := by
            unfold truthyAt; rw [h]; exact hr
          have hstep := processStep_abort h ht hr
          refine ⟨?_, ?_, ?_, ?_, ?_⟩
          · rw [hihres.1, hCc, hstep]
            simp only [List.filter_cons, hC, if_true, List.length_cons]
            push_cast
            ring
          · rw [hihres.2.1, hTc, hstep]
            simp only [List.filter_cons, hC, hT]
            simp
          · rw [hihres.2.2.1, hFc, hstep]
            simp only [List.filter_cons, hC, hT]
            simp
          · rw [hihres.2.2.2.1, hTc,
              hMc _ (hsub (fun j => isCompletedAt st.store j && truthyAt st.store j)),
              hstep]
            simp only [List.filter_cons, hC, hT]
            simp
          · rw [hihres.2.2.2.2, hFc,
              hMc _ (hsub (fun j => isCompletedAt st.store j && !truthyAt st.store j)),
              hstep]
            simp only [List.filter_cons, hC, hT, List.map_cons, hRes]
            simp [hRes]
      · have hC : isCompletedAt st.store id = false := by
          unfold isCompletedAt; rw [h]; simp [ht]
        rw [processStep_not_completed h ht] at hihres
        refine ⟨?_, ?_, ?_, ?_, ?_⟩ <;>
          · rw [processStep_not_completed h ht]
            simp only [List.filter_cons, hC, Bool.false_and, Bool.false_eq_true, if_false]
            first
              | exact hihres.1
              | exact hihres.2.1
              | exact hihres.2.2.1
              | exact hihres.2.2.2.1
              | exact hihres.2.2.2.2

lemma process_go_store_mem (l : List Nat) (st : Interledger) (hnd : l.Nodup)
    (j : Nat) (hj : j ∈ l) (t : Transfer) (h : st.store[j]? = some t) :
    (t.state = State.COMPLETED →
      (l.foldl processStep st).store[j]? = some (processedVersion t)) ∧
    (¬ t.state = State.COMPLETED → (l.foldl processStep st).store[j]? = some t) := by
  induction l generalizing st with
  | nil => exact absurd hj (List.not_mem_nil j)
  | cons id rest ih =>
    obtain ⟨hid, hnd'⟩ := List.nodup_cons.mp hnd
    simp only [List.foldl_cons]
    rcases List.mem_cons.mp hj with rfl | hjr
    · constructor
      · intro ht
        have hlt : j < st.store.length := (List.getElem?_eq_some.mp h).1
        have h1 : (processStep st j).store[j]? = some (processedVersion t) := by
          cases hr : truthy t.result with
          | true => rw [processStep_commit h ht hr]; simp [List.getElem?_set_self, hlt]
          | false => rw [processStep_abort h ht hr]; simp [List.getElem?_set_self, hlt]
        rw [process_go_store_ne rest (processStep st j) j hid]
        exact h1
      · intro ht
        rw [process_go_store_ne rest (processStep st j) j hid,
          processStep_not_completed h ht]
        exact h
    · have hji : j ≠ id := fun he => hid (he ▸ hjr)
      have h1 : (processStep st id).store[j]? = some t := by
        rw [processStep_store_ne j hji]; exact h
      exact ih (processStep st id) hnd' hjr h1

lemma collect_go_states (l : List Nat) (st : Interledger) (j : Nat) :
    sentOrCompAt (collectGo l st).2.store j = sentOrCompAt st.store j := by
  induction l generalizing st with
  | nil => rfl
  | cons id rest ih =>
    cases hg : st.store[id]? with
    | none => rw [collectGo_cons_none hg]; exact ih st
    | some u =>
      by_cases hc : u.state = State.SENT ∧ ¬ u.state = State.COMPLETED
      · cases hf : u.future with
        | none => rw [collectGo_cons_fnone hg hc hf]; exact ih st
        | some fs =>
          cases fs with
          | notDone => rw [collectGo_cons_notDone hg hc hf]; exact ih st
          | doneOk b =>
            rw [collectGo_cons_ok hg hc hf,
              ih { st with store := st.store.set id (completedVersion u b) }]
            by_cases hji : j = id
            · subst hji
              have hlt : j < st.store.length := (List.getElem?_eq_some.mp hg).1
              unfold sentOrCompAt
              rw [hg]
              simp [List.getElem?_set_self, hlt, completedVersion, hc.1]
            · unfold sentOrCompAt
              rw [List.getElem?_set_ne (fun he => hji he.symm)]
          | doneErr => rw [collectGo_cons_err hg hc hf]
      · rw [collectGo_cons_skip hg hc]; exact ih st

lemma collect_go_ok (l : List Nat) (st : Interledger)
    (hne : ∀ j ∈ l, ∀ t : Transfer, st.store[j]? = some t →
      t.state = State.SENT → t.future ≠ some FutStatus.doneErr) :
    (collectGo l st).1 = Except.ok () ∧
    (∀ j, j ∉ l → (collectGo l st).2.store[j]? = st.store[j]?) ∧
    (∀ j ∈ l, ∀ t : Transfer, st.store[j]? = some t →
      (∀ b, t.state = State.SENT → t.future = some (FutStatus.doneOk b) →
        (collectGo l st).2.store[j]? = some (completedVersion t b)) ∧
      (¬ t.state = State.SENT → (collectGo l st).2.store[j]? = some t) ∧
      (futDone t.future = false → (collectGo l st).2.store[j]? = some t)) := by
  induction l generalizing st with
  | nil =>
    exact ⟨rfl, fun j _ => rfl, fun j hj => absurd hj (List.not_mem_nil j)⟩
  | cons id rest ih =>
    have hne' : ∀ j ∈ rest, ∀ t : Transfer, st.store[j]? = some t →
        t.state = State.SENT → t.future ≠ some FutStatus.doneErr :=
      fun j hj => hne j (List.mem_cons_of_mem id hj)
    cases hg : st.store[id]? with
    | none =>
      rw [collectGo_cons_none hg]
      obtain ⟨hok, hfr, hmem⟩ := ih st hne'
      refine ⟨hok, fun j hj => hfr j (fun hm => hj (List.mem_cons_of_mem id hm)), ?_⟩
      intro j hj t h
      rcases List.mem_cons.mp hj with rfl | hjr
      · rw [hg] at h; exact absurd h (by simp)
      · exact hmem j hjr t h
    | some u =>
      by_cases hc : u.state = State.SENT ∧ ¬ u.state = State.COMPLETED
      · cases hf : u.future with
        | none =>
          rw [collectGo_cons_fnone hg hc hf]
          obtain ⟨hok, hfr, hmem⟩ := ih st hne'
          refine ⟨hok, fun j hj => hfr j (fun hm => hj (List.mem_cons_of_mem id hm)), ?_⟩
          intro j hj t h
          rcases List.mem_cons.mp hj with rfl | hjr
          · have hut : t = u := by rw [h] at hg; injection hg
            subst hut
            refine ⟨?_, ?_, ?_⟩
            · intro b _ hfb
              rw [hf] at hfb
              exact absurd hfb (by simp)
            · intro hns
              exact absurd hc.1 hns
            · intro _
              by_cases hjr' : j ∈ rest
              · exact ((hmem j hjr' t h).2.2) (by rw [hf]; rfl)
              · rw [hfr j hjr']; exact h
          · exact hmem j hjr t h
        | some fs =>
          cases fs with
          | notDone =>
            rw [collectGo_cons_notDone hg hc hf]
            obtain ⟨hok, hfr, hmem⟩ := ih st hne'
            refine ⟨hok, fun j hj => hfr j (fun hm => hj (List.mem_cons_of_mem id hm)), ?_⟩
            intro j hj t h
            rcases List.mem_cons.mp hj with rfl | hjr
            · have hut : t = u := by rw [h] at hg; injection hg
              subst hut
              refine ⟨?_, ?_, ?_⟩
              · intro b _ hfb
                rw [hf] at hfb
                exact absurd hfb (by simp)
              · intro hns
                exact absurd hc.1 hns
              · intro _
                by_cases hjr' : j ∈ rest
                · exact ((hmem j hjr' t h).2.2) (by rw [hf]; rfl)
                · rw [hfr j hjr']; exact h
            · exact hmem j hjr t h
          | doneOk b =>
            rw [collectGo_cons_ok hg hc hf]
            have hlt : id < st.store.length := (List.getElem?_eq_some.mp hg).1
            have hset : ({ st with store := st.store.set id (completedVersion u b) }
                : Interledger).store[id]? = some (completedVersion u b) := by
              simp [List.getElem?_set_self, hlt]
            have hne2 : ∀ j ∈ rest, ∀ t : Transfer,
                ({ st with store := st.store.set id (completedVersion u b) }
                  : Interledger).store[j]? = some t →
                t.state = State.SENT → t.future ≠ some FutStatus.doneErr := by
              intro j hj t h hs
              by_cases hji : j = id
              · subst hji
                rw [hset] at h
                injection h with he
                rw [← he] at hs
                exact absurd hs (by simp [completedVersion])
              · rw [List.getElem?_set_ne (fun he => hji he.symm)] at h
                exact hne' j hj t h hs
            obtain ⟨hok, hfr, hmem⟩ :=
              ih { st with store := st.store.set id (completedVersion u b) } hne2
            refine ⟨hok, ?_, ?_⟩
            · intro j hj
              have hji : j ≠ id := fun he => hj (he ▸ List.mem_cons_self id rest)
              have hjr : j ∉ rest := fun hm => hj (List.mem_cons_of_mem id hm)
              rw [hfr j hjr]
              exact List.getElem?_set_ne (fun he => hji he.symm)
            · intro j hj t h
              by_cases hji : j = id
              · subst hji
                have hut : t = u := by rw [h] at hg; injection hg
                subst hut
                refine ⟨?_, ?_, ?_⟩
                · intro b' _ hfb
                  rw [hf] at hfb
                  injection hfb with he
                  injection he with he2
                  subst he2
                  by_cases hjr' : j ∈ rest
                  · exact ((hmem j hjr' (completedVersion t b) hset).2.1)
                      (by simp [completedVersion])
                  · rw [hfr j hjr']
                    exact hset
                · intro hns
                  exact absurd hc.1 hns
                · intro hfd
                  rw [hf] at hfd
                  exact absurd hfd (by simp [futDone])
              · have hjr : j ∈ rest := by
                  rcases List.mem_cons.mp hj with rfl | hjr
                  · exact absurd rfl hji
                  · exact hjr
                have h1 : ({ st with store := st.store.set id (completedVersion u b) }
                    : Interledger).store[j]? = some t := by
                  rw [List.getElem?_set_ne (fun he => hji he.symm)]
                  exact h
                exact hmem j hjr t h1
          | doneErr =>
            exact absurd hf (hne id (List.mem_cons_self id rest) u hg hc.1)
      · rw [collectGo_cons_skip hg hc]
        obtain ⟨hok, hfr, hmem⟩ := ih st hne'
        refine ⟨hok, fun j hj => hfr j (fun hm => hj (List.mem_cons_of_mem id hm)), ?_⟩
        intro j hj t h
        rcases List.mem_cons.mp hj with rfl | hjr
        · have hut : t = u := by rw [h] at hg; injection hg
          subst hut
          have hns : ¬ t.state = State.SENT := by
            intro hs
            exact hc ⟨hs, by rw [hs]; simp⟩
          refine ⟨?_, ?_, ?_⟩
          · intro b hs _
            exact absurd hs hns
          · intro _
            by_cases hjr' : j ∈ rest
            · exact ((hmem j hjr' t h).2.1) hns
            · rw [hfr j hjr']; exact h
          · intro _
            by_cases hjr' : j ∈ rest
            · exact ((hmem j hjr' t h).2.1) hns
            · rw [hfr j hjr']; exact h
        · exact hmem j hjr t h

/-- C8: the ingest operation returns the number of polled transfers and
only appends them to the pool; an empty poll changes nothing and returns 0;
a poll error propagates with no state change at all. -/
theorem receive_transfer_spec (s : Interledger) (ds : List Transfer) :
    receive_transfer s (Except.error ()) = (Except.error (), s) ∧
    receive_transfer s (Except.ok []) = (Except.ok 0, s) ∧
    receive_transfer s (Except.ok ds) =
      (Except.ok ds.length,
        { s with
          store := s.store ++ ds
          , transfers := s.transfers ++ (List.range ds.length).map
              (fun k => s.store.length + k) }) := by
  refine ⟨rfl, rfl, ?_⟩
  cases ds with
  | nil => simp [receive_transfer]
  | cons d rest => simp [receive_transfer]

/-- C3 counterexample: after dispatch, the `READY` transfer has become
`SENT` but is still a member of the pool list — `send_transfer` never
removes anything from `transfers`, so pool membership does not imply
state READY. -/
theorem dispatch_leaves_transfer_in_pool :
    (send_transfer exPool).transfers = [0] ∧
    stateOf (send_transfer exPool) 0 = some State.SENT ∧
    0 ∈ (send_transfer exPool).transfers := by
  refine ⟨rfl, rfl, ?_⟩
  simp [send_transfer, exPool, sendStep]

/-- C3 (amended): dispatch transitions every `READY` pool transfer to
`SENT`, records a fresh receive handle, appends it to inflight and
increments `pending` — but the transfer stays in the pool list, which
dispatch leaves unchanged. -/
theorem send_transfer_amended (s : Interledger) (hnd : s.transfers.Nodup) :
    (send_transfer s).transfers = s.transfers ∧
    (send_transfer s).transfers_sent =
      s.transfers_sent ++ s.transfers.filter (isReadyAt s.store) ∧
    (send_transfer s).pending =
      s.pending + ((s.transfers.filter (isReadyAt s.store)).length : Int) ∧
    (∀ j ∈ s.transfers, ∀ t : Transfer, s.store[j]? = some t →
      t.state = State.READY →
      (send_transfer s).store[j]? = some (sentVersion t) ∧
      j ∈ (send_transfer s).transfers_sent) ∧
    (∀ j, ∀ t : Transfer, s.store[j]? = some t →
      (j ∉ s.transfers ∨ ¬ t.state = State.READY) →
      (send_transfer s).store[j]? = some t) := by
  unfold send_transfer
  refine ⟨(send_go_frame s.transfers s).1,
    send_go_sent_append s.transfers s hnd,
    send_go_pending s.transfers s hnd, ?_, ?_⟩
  · intro j hj t h ht
    refine ⟨(send_go_store_mem s.transfers s hnd j hj t h).1 ht, ?_⟩
    rw [send_go_sent_append s.transfers s hnd]
    have : j ∈ s.transfers.filter (isReadyAt s.store) := by
      apply List.mem_filter.mpr
      refine ⟨hj, ?_⟩
      unfold isReadyAt
      rw [h]
      simp [ht]
    exact List.mem_append.mpr (Or.inr this)
  · intro j t h hcase
    rcases hcase with hj | ht
    · exact (send_go_store_ne s.transfers s j hj).trans h
    · by_cases hj : j ∈ s.transfers
      · exact (send_go_store_mem s.transfers s hnd j hj t h).2 ht
      · exact (send_go_store_ne s.transfers s j hj).trans h

/-- Witness for the amended C3 theorem at a concrete one-transfer state. -/
theorem send_transfer_amended_witness :
    (send_transfer exPool).transfers = [0] ∧
    (send_transfer exPool).transfers_sent = [0] ∧
    (send_transfer exPool).pending = 1 := by
  have h := send_transfer_amended exPool (by decide)
  refine ⟨h.1.trans (by decide), h.2.1.trans (by decide), h.2.2.1.trans (by decide)⟩

/-- C4: finalize commits every successful `COMPLETED` transfer and aborts
every failed one, recording the result in the matching list, marking the
transfer `PROCESSED` and decrementing `pending` by one per transfer, all
without touching any transfer that is not `COMPLETED`. -/
theorem process_result_spec (s : Interledger) (hnd : s.transfers_sent.Nodup) :
    (process_result s).transfers = s.transfers ∧
    (process_result s).transfers_sent = s.transfers_sent ∧
    (process_result s).pending =
      s.pending - ((s.transfers_sent.filter (isCompletedAt s.store)).length : Int) ∧
    (process_result s).commit_requests =
      s.commit_requests ++ s.transfers_sent.filter
        (fun id => isCompletedAt s.store id && truthyAt s.store id) ∧
    (process_result s).abort_requests =
      s.abort_requests ++ s.transfers_sent.filter
        (fun id => isCompletedAt s.store id && !truthyAt s.store id) ∧
    (process_result s).results_commit =
      s.results_commit ++ (s.transfers_sent.filter
        (fun id => isCompletedAt s.store id && truthyAt s.store id)).map
          (resultAt s.store) ∧
    (process_result s).results_abort =
      s.results_abort ++ (s.transfers_sent.filter
        (fun id => isCompletedAt s.store id && !truthyAt s.store id)).map
          (resultAt s.store) ∧
    (∀ j ∈ s.transfers_sent, ∀ t : Transfer, s.store[j]? = some t →
      t.state = State.COMPLETED →
      (process_result s).store[j]? = some (processedVersion t)) ∧
    (∀ j, ∀ t : Transfer, s.store[j]? = some t →
      (j ∉ s.transfers_sent ∨ ¬ t.state = State.COMPLETED) →
      (process_result s).store[j]? = some t) := by
  have hchar := process_go_char s.transfers_sent s hnd
  have hlists := process_go_lists s.transfers_sent s
  unfold process_result
  refine ⟨hlists.1, hlists.2.1, hchar.1, hchar.2.1, hchar.2.2.1,
    hchar.2.2.2.1, hchar.2.2.2.2, ?_, ?_⟩
  · intro j hj t h ht
    exact (process_go_store_mem s.transfers_sent s hnd j hj t h).1 ht
  · intro j t h hcase
    rcases hcase with hj | ht
    · exact (process_go_store_ne s.transfers_sent s j hj).trans h
    · by_cases hj : j ∈ s.transfers_sent
      · exact (process_go_store_mem s.transfers_sent s hnd j hj t h).2 ht
      · exact (process_go_store_ne s.transfers_sent s j hj).trans h

/-- Witness for C4 at a concrete state: the successful transfer is
committed, the failed one aborted, both become `PROCESSED`, and `pending`
drops by two while the `SENT` transfer is untouched. -/
theorem process_result_spec_witness :
    (process_result exFinal).commit_requests = [0] ∧
    (process_result exFinal).abort_requests = [1] ∧
    (process_result exFinal).pending = 1 ∧
    (process_result exFinal).results_commit = [some true] ∧
    (process_result exFinal).results_abort = [some false] := by
  have h := process_result_spec exFinal (by decide)
  exact ⟨h.2.2.2.1.trans (by decide), h.2.2.2.2.1.trans (by decide),
    h.2.2.1.trans (by decide), h.2.2.2.2.2.1.trans (by decide),
    h.2.2.2.2.2.2.1.trans (by decide)⟩

/-- C1 (code behaviour at the failing input): when the receive future of a
`SENT` transfer completed exceptionally, `transfer_result` re-raises the
exception from `future.result()` instead of recording `result = false`; the
transfer stays `SENT` with no result, and a subsequent finalize pass
requests neither abort nor commit for it. -/
theorem exceptional_receive_not_aborted :
    transfer_result exErr = (Except.error (), exErr) ∧
    stateOf (transfer_result exErr).2 0 = some State.SENT ∧
    resultAt (transfer_result exErr).2.store 0 = none ∧
    (process_result (transfer_result exErr).2).abort_requests = [] ∧
    (process_result (transfer_result exErr).2).commit_requests = [] := by
  exact ⟨rfl, by decide, by decide, by decide, by decide⟩

/-- C2 counterexample: the collect wait can return although no `SENT`
transfer has a completed receive handle — the wait set contains the (done)
futures of already-`PROCESSED` inflight transfers as well.  In `exWait` the
only done future belongs to a `PROCESSED` transfer, yet the wait condition
of `asyncio.wait(..., FIRST_COMPLETED)` holds. -/
theorem collect_unblocks_without_sent_complete :
    wait_can_return exWait = true ∧
    (exWait.transfers_sent.any fun id =>
      decide (stateOf exWait id = some State.SENT) &&
        (match exWait.store[id]? with
          | some t => futDone t.future
          | none => false)) = false := by
  exact ⟨by decide, by decide⟩

/-- C2 (amended): collect returns once at least one inflight transfer — of
any state, not necessarily `SENT` — has a completed receive handle
(`wait_can_return`); on return, every `SENT` transfer whose handle completed
normally has the returned boolean stored in `result` and its state set to
`COMPLETED`; transfers not in state `SENT` and transfers whose handle is
not done are left unchanged, as are all other engine fields (the hypothesis
excludes exceptionally completed handles of `SENT` transfers). -/
theorem transfer_result_amended (s : Interledger)
    (hw : wait_can_return s = true)
    (hne : ∀ j ∈ s.transfers_sent, ∀ t : Transfer, s.store[j]? = some t →
      t.state = State.SENT → t.future ≠ some FutStatus.doneErr) :
    (∃ j ∈ s.transfers_sent, ∃ t : Transfer, s.store[j]? = some t ∧
      futDone t.future = true) ∧
    (transfer_result s).1 = Except.ok () ∧
    (transfer_result s).2.transfers = s.transfers ∧
    (transfer_result s).2.transfers_sent = s.transfers_sent ∧
    (transfer_result s).2.pending = s.pending ∧
    (transfer_result s).2.results_commit = s.results_commit ∧
    (transfer_result s).2.results_abort = s.results_abort ∧
    (transfer_result s).2.commit_requests = s.commit_requests ∧
    (transfer_result s).2.abort_requests = s.abort_requests ∧
    (∀ j ∈ s.transfers_sent, ∀ t : Transfer, s.store[j]? = some t →
      (∀ b, t.state = State.SENT → t.future = some (FutStatus.doneOk b) →
        (transfer_result s).2.store[j]? = some (completedVersion t b)) ∧
      (¬ t.state = State.SENT → (transfer_result s).2.store[j]? = some t) ∧
      (futDone t.future = false → (transfer_result s).2.store[j]? = some t)) ∧
    (∀ j, j ∉ s.transfers_sent → (transfer_result s).2.store[j]? = s.store[j]?) := by
  have hok := collect_go_ok s.transfers_sent s hne
  have hfr := collect_go_frame s.transfers_sent s
  have hdone : ∃ j ∈ s.transfers_sent, ∃ t : Transfer, s.store[j]? = some t ∧
      futDone t.future = true := by
    obtain ⟨j, hj, hp⟩ := List.any_eq_true.mp hw
    refine ⟨j, hj, ?_⟩
    cases hg : s.store[j]? with
    | none => rw [hg] at hp; exact absurd hp (by simp)
    | some t => rw [hg] at hp; exact ⟨t, rfl, hp⟩
  unfold transfer_result
  exact ⟨hdone, hok.1, hfr.1, hfr.2.1, hfr.2.2.1, hfr.2.2.2.1, hfr.2.2.2.2.1,
    hfr.2.2.2.2.2.1, hfr.2.2.2.2.2.2.1, hok.2.2, hok.2.1⟩

/-- Witness for the amended C2 theorem at a concrete state: the transfer
with the normally-completed handle is collected, the still-running one is
untouched, and no exception escapes. -/
theorem transfer_result_amended_witness :
    (transfer_result exCollect).1 = Except.ok () ∧
    (transfer_result exCollect).2.store[0]? =
      some { future := some (FutStatus.doneOk true), result := some true
           , state := State.COMPLETED, data := some 1 } ∧
    (transfer_result exCollect).2.store[1]? =
      some { future := some FutStatus.notDone, result := none
           , state := State.SENT, data := some 2 } := by
  have h := transfer_result_amended exCollect (by decide) (by decide)
  refine ⟨h.2.1, ?_, ?_⟩
  · have h0 := (h.2.2.2.2.2.2.2.2.2.1 0 (by decide)
      { future := some (FutStatus.doneOk true), result := none
      , state := State.SENT, data := some 1 } (by decide)).1 true rfl rfl
    exact h0.trans (by decide)
  · exact ((h.2.2.2.2.2.2.2.2.2.1 1 (by decide)
      { future := some FutStatus.notDone, result := none
      , state := State.SENT, data := some 2 } (by decide)).2.2 (by decide)).trans
      (by decide)

lemma sentOrCompAt_append (store ts : List Transfer) (id : Nat)
    (h : id < store.length) :
    sentOrCompAt (store ++ ts) id = sentOrCompAt store id := by
  unfold sentOrCompAt
  rw [List.getElem?_append_left h]

lemma interIds_nodup (a c : List Nat) : (interIds a c).Nodup :=
  (List.nodup_dedup a).filter _

lemma mem_interIds {a c : List Nat} {i : Nat} :
    i ∈ interIds a c ↔ i ∈ a ∧ i ∈ c := by
  unfold interIds
  simp [List.mem_filter, List.mem_dedup]

lemma restore_sent_length (a c : List Nat) :
    (restore_pending_transfers_sent a c).length = (interIds a c).length := by
  unfold restore_pending_transfers_sent
  simp

lemma restore_ready_length (a b : List Nat) :
    (restore_pending_transfers_ready a b).length = (interIds a b).length := by
  unfold restore_pending_transfers_ready
  simp

lemma restore_sent_get (a c : List Nat) (k : Nat) (hk : k < (interIds a c).length) :
    (restore_pending_transfers_sent a c)[k]? =
      some { future := none, result := some true, state := State.COMPLETED
           , data := some ((interIds a c)[k]) } := by
  unfold restore_pending_transfers_sent
  rw [List.getElem?_map, List.getElem?_eq_getElem hk]
  rfl

lemma restore_ready_get (a b : List Nat) (k : Nat) (hk : k < (interIds a b).length) :
    (restore_pending_transfers_ready a b)[k]? =
      some { future := none, result := none, state := State.READY
           , data := some ((interIds a b)[k]) } := by
  unfold restore_pending_transfers_ready
  rw [List.getElem?_map, List.getElem?_eq_getElem hk]
  rfl

lemma stateInit_store (a b c : List Nat) :
    (StateInterledger.init a b c).store =
      restore_pending_transfers_ready a b ++ restore_pending_transfers_sent a c := rfl

lemma stateInit_pool (a b c : List Nat) :
    (StateInterledger.init a b c).transfers =
      List.range (restore_pending_transfers_ready a b).length := rfl

lemma stateInit_sent (a b c : List Nat) :
    (StateInterledger.init a b c).transfers_sent =
      (List.range (restore_pending_transfers_sent a c).length).map
        (fun k => (restore_pending_transfers_ready a b).length + k) := rfl

lemma stateInit_pending (a b c : List Nat) :
    (StateInterledger.init a b c).pending =
      ((restore_pending_transfers_sent a c).length : Int) := rfl

lemma stateInit_store_sent (a b c : List Nat) (k : Nat)
    (hk : k < (interIds a c).length) :
    (StateInterledger.init a b c).store[
        (restore_pending_transfers_ready a b).length + k]? =
      some { future := none, result := some true, state := State.COMPLETED
           , data := some ((interIds a c)[k]) } := by
  rw [stateInit_store]
  have h1 : ((restore_pending_transfers_ready a b ++
      restore_pending_transfers_sent a c))[
        (restore_pending_transfers_ready a b).length + k]? =
      (restore_pending_transfers_sent a c)[k]? := by
    simp [List.getElem?_append_right]
  rw [h1]
  exact restore_sent_get a c k hk

lemma stateInit_store_ready (a b c : List Nat) (k : Nat)
    (hk : k < (interIds a b).length) :
    (StateInterledger.init a b c).store[k]? =
      some { future := none, result := none, state := State.READY
           , data := some ((interIds a b)[k]) } := by
  rw [stateInit_store]
  rw [List.getElem?_append_left (by rw [restore_ready_length]; exact hk)]
  exact restore_ready_get a b k hk

lemma countP_sub (ts : List Nat) (p q c : Nat → Bool)
    (h : ∀ id ∈ ts, (c id = true → p id = true ∧ q id = false) ∧
      (c id = false → q id = p id)) :
    ts.countP q + ts.countP c = ts.countP p := by
  induction ts with
  | nil => simp
  | cons x xs ih =>
    have hx := h x (List.mem_cons_self x xs)
    have ih' := ih (fun id hid => h id (List.mem_cons_of_mem x hid))
    rw [List.countP_cons, List.countP_cons, List.countP_cons]
    cases hc : c x with
    | true =>
      rw [(hx.1 hc).1, (hx.1 hc).2]
      simp
      omega
    | false =>
      rw [hx.2 hc]
      simp
      omega

/-- C5: the specification's pending invariant
`pending = |{T ∈ inflight : T.state ∈ {SENT, COMPLETED}}|` holds after both
constructors and is preserved by every stage operation (hence on entry and
exit of every main-loop iteration), under the structural well-formedness the
engine maintains: inflight indices are in range and Nodup, the pool list is
Nodup, and no inflight transfer is `READY`. -/
theorem pending_invariant_preserved :
    pendingInv Interledger.init ∧
    (∀ a b c : List Nat, pendingInv (StateInterledger.init a b c)) ∧
    (∀ (s : Interledger) (polled : Except Unit (List Transfer)),
      (∀ id ∈ s.transfers_sent, id < s.store.length) →
      pendingInv s → pendingInv (receive_transfer s polled).2) ∧
    (∀ s : Interledger, s.transfers.Nodup →
      (∀ id ∈ s.transfers_sent, stateOf s id ≠ some State.READY) →
      pendingInv s → pendingInv (send_transfer s)) ∧
    (∀ s : Interledger, pendingInv s → pendingInv (transfer_result s).2) ∧
    (∀ s : Interledger, s.transfers_sent.Nodup →
      pendingInv s → pendingInv (process_result s)) := by
  refine ⟨?_, ?_, ?_, ?_, ?_, ?_⟩
  · rfl
  · intro a b c
    unfold pendingInv
    rw [stateInit_pending, stateInit_sent]
    have hall : ∀ id ∈ (List.range (restore_pending_transfers_sent a c).length).map
        (fun k => (restore_pending_transfers_ready a b).length + k),
        sentOrCompAt (StateInterledger.init a b c).store id = true := by
      intro id hid
      obtain ⟨k, hk, rfl⟩ := List.mem_map.mp hid
      have hk' : k < (interIds a c).length := by
        rw [← restore_sent_length a c]
        exact List.mem_range.mp hk
      unfold sentOrCompAt
      rw [stateInit_store_sent a b c k hk']
      rfl
    rw [List.filter_eq_self.mpr hall]
    simp
  · intro s polled hb hinv
    cases polled with
    | error e => exact hinv
    | ok ts =>
      cases ts with
      | nil => exact hinv
      | cons d rest =>
        unfold pendingInv at hinv ⊢
        have hred : (receive_transfer s (Except.ok (d :: rest))).2 =
            { s with
              store := s.store ++ (d :: rest)
              , transfers := s.transfers ++ (List.range (d :: rest).length).map
                  (fun k => s.store.length + k) } := by
          simp [receive_transfer]
        rw [hred]
        have hcongr : ∀ id ∈ s.transfers_sent,
            sentOrCompAt (s.store ++ (d :: rest)) id = sentOrCompAt s.store id :=
          fun id hid => sentOrCompAt_append _ _ id (hb id hid)
        rw [List.filter_congr hcongr]
        exact hinv
  · intro s hnd hnr hinv
    unfold pendingInv at hinv ⊢
    unfold send_transfer
    rw [send_go_pending s.transfers s hnd, send_go_sent_append s.transfers s hnd,
      List.filter_append]
    have hcongr : ∀ id ∈ s.transfers_sent,
        sentOrCompAt (s.transfers.foldl sendStep s).store id =
          sentOrCompAt s.store id := by
      intro id hid
      cases hg : s.store[id]? with
      | none =>
        have hlen := (send_go_frame s.transfers s).2.2.2.2.2
        have hnone : (s.transfers.foldl sendStep s).store[id]? = none := by
          apply List.getElem?_eq_none
          rw [hlen]
          exact List.getElem?_eq_none_iff.mp hg
        unfold sentOrCompAt
        rw [hg, hnone]
      | some t =>
        have ht : ¬ t.state = State.READY := by
          have h2 := hnr id hid
          unfold stateOf at h2
          rw [hg] at h2
          simpa using h2
        have hsame : (s.transfers.foldl sendStep s).store[id]? = some t := by
          by_cases hm : id ∈ s.transfers
          · exact (send_go_store_mem s.transfers s hnd id hm t hg).2 ht
          · exact (send_go_store_ne s.transfers s id hm).trans hg
        unfold sentOrCompAt
        rw [hg, hsame]
    have hfilter2 : (s.transfers.filter (isReadyAt s.store)).filter
        (sentOrCompAt (s.transfers.foldl sendStep s).store) =
        s.transfers.filter (isReadyAt s.store) := by
      apply List.filter_eq_self.mpr
      intro id hid
      have hm := List.mem_filter.mp hid
      obtain ⟨t, hg, ht⟩ : ∃ t : Transfer, s.store[id]? = some t ∧
          t.state = State.READY := by
        have hready := hm.2
        unfold isReadyAt at hready
        cases hg : s.store[id]? with
        | none => rw [hg] at hready; exact absurd hready (by simp)
        | some t => rw [hg] at hready; exact ⟨t, rfl, by simpa using hready⟩
      have hs := (send_go_store_mem s.transfers s hnd id hm.1 t hg).1 ht
      unfold sentOrCompAt
      rw [hs]
      rfl
    rw [List.filter_congr hcongr, hfilter2, List.length_append]
    push_cast
    omega
  · intro s hinv
    unfold pendingInv at hinv ⊢
    have hfr := collect_go_frame s.transfers_sent s
    unfold transfer_result
    rw [hfr.2.2.1, hfr.2.1]
    have hcongr : ∀ id ∈ s.transfers_sent,
        sentOrCompAt (collectGo s.transfers_sent s).2.store id =
          sentOrCompAt s.store id :=
      fun id _ => collect_go_states s.transfers_sent s id
    rw [List.filter_congr hcongr]
    exact hinv
  · intro s hnd hinv
    unfold pendingInv at hinv ⊢
    have hchar := process_go_char s.transfers_sent s hnd
    have hlists := process_go_lists s.transfers_sent s
    unfold process_result
    rw [hchar.1, hlists.2.1]
    have hkey := countP_sub s.transfers_sent
      (sentOrCompAt s.store)
      (sentOrCompAt (s.transfers_sent.foldl processStep s).store)
      (isCompletedAt s.store) ?side
    case side =>
      intro id hid
      cases hg : s.store[id]? with
      | none =>
        constructor
        · intro hc
          unfold isCompletedAt at hc
          rw [hg] at hc
          exact absurd hc (by simp)
        · intro _
          have hnone : (s.transfers_sent.foldl processStep s).store[id]? = none := by
            apply List.getElem?_eq_none
            rw [hlists.2.2]
            exact List.getElem?_eq_none_iff.mp hg
          unfold sentOrCompAt
          rw [hg, hnone]
      | some t =>
        by_cases ht : t.state = State.COMPLETED
        · have hc : isCompletedAt s.store id = true := by
            unfold isCompletedAt
            rw [hg]
            simp [ht]
          constructor
          · intro _
            constructor
            · unfold sentOrCompAt
              rw [hg]
              simp [ht]
            · have hp := (process_go_store_mem s.transfers_sent s hnd id hid t hg).1 ht
              unfold sentOrCompAt
              rw [hp]
              rfl
          · intro hcf
            rw [hc] at hcf
            exact absurd hcf (by simp)
        · have hc : isCompletedAt s.store id = false := by
            unfold isCompletedAt
            rw [hg]
            simp [ht]
          constructor
          · intro hct
            rw [hc] at hct
            exact absurd hct (by simp)
          · intro _
            have hp := (process_go_store_mem s.transfers_sent s hnd id hid t hg).2 ht
            unfold sentOrCompAt
            rw [hg, hp]
    rw [← List.countP_eq_length_filter] at hinv
    rw [← List.countP_eq_length_filter, ← List.countP_eq_length_filter]
    omega

/-- Witness for C5 at concrete states: the invariant holds after a dispatch
from `exPool` and after a finalize from `exFinal`. -/
theorem pending_invariant_witness :
    pendingInv (send_transfer exPool) ∧ pendingInv (process_result exFinal) := by
  have h := pending_invariant_preserved
  exact ⟨h.2.2.2.1 exPool (by decide) (by decide) rfl,
    h.2.2.2.2.2 exFinal (by decide) rfl⟩

lemma countP_range_getElem (l : List Nat) (i : Nat) :
    (List.range l.length).countP (fun k => decide (l[k]? = some i)) = l.count i := by
  induction l with
  | nil => simp
  | cons x xs ih =>
    rw [List.length_cons, List.range_succ_eq_map, List.countP_cons]
    have hmap : ((List.range xs.length).map Nat.succ).countP
        (fun k => decide ((x :: xs)[k]? = some i)) =
        (List.range xs.length).countP (fun k => decide (xs[k]? = some i)) := by
      rw [List.countP_map]
      apply List.countP_congr
      intro k _
      simp only [Function.comp_apply, List.getElem?_cons_succ]
    rw [hmap, ih, List.count_cons]
    have hhead : (decide ((x :: xs)[0]? = some i) = true) ↔ ((x == i) = true) := by
      simp
    by_cases hx : x = i
    · simp [hx]
    · simp [hx]

lemma count_interIds_one (a c : List Nat) (i : Nat) (hia : i ∈ a) (hic : i ∈ c) :
    (interIds a c).count i = 1 :=
  List.count_eq_one_of_mem (interIds_nodup a c) (mem_interIds.mpr ⟨hia, hic⟩)

/-- C6: after state-aware construction, inflight holds exactly one
`COMPLETED`, `result = true` transfer per asset ID in the intersection of
the Initiator's TRANSFER_OUT set and the Responder's HERE set (and nothing
else), and `pending` equals the number of such IDs. -/
theorem recovery_completed_spec (a b c : List Nat) :
    (StateInterledger.init a b c).pending = ((interIds a c).length : Int) ∧
    (StateInterledger.init a b c).transfers_sent.length = (interIds a c).length ∧
    (∀ id ∈ (StateInterledger.init a b c).transfers_sent,
      ∃ t : Transfer, (StateInterledger.init a b c).store[id]? = some t ∧
        t.state = State.COMPLETED ∧ t.result = some true ∧
        ∃ i, t.data = some i ∧ i ∈ a ∧ i ∈ c) ∧
    (∀ i, i ∈ a → i ∈ c →
      (StateInterledger.init a b c).transfers_sent.countP
        (fun id => decide
          (dataAt (StateInterledger.init a b c).store id = some i)) = 1) := by
  refine ⟨?_, ?_, ?_, ?_⟩
  · rw [stateInit_pending, restore_sent_length]
  · rw [stateInit_sent]
    simp [restore_sent_length]
  · intro id hid
    rw [stateInit_sent] at hid
    obtain ⟨k, hk, rfl⟩ := List.mem_map.mp hid
    have hk' : k < (interIds a c).length := by
      rw [← restore_sent_length a c]
      exact List.mem_range.mp hk
    refine ⟨_, stateInit_store_sent a b c k hk', rfl, rfl,
      (interIds a c)[k], rfl, ?_⟩
    exact mem_interIds.mp (List.getElem_mem hk')
  · intro i hia hic
    rw [stateInit_sent]
    have hmap : ((List.range (restore_pending_transfers_sent a c).length).map
          (fun k => (restore_pending_transfers_ready a b).length + k)).countP
        (fun id => decide
          (dataAt (StateInterledger.init a b c).store id = some i)) =
        (List.range (restore_pending_transfers_sent a c).length).countP
          (fun k => decide ((interIds a c)[k]? = some i)) := by
      rw [List.countP_map]
      apply List.countP_congr
      intro k hk
      have hk' : k < (interIds a c).length := by
        rw [← restore_sent_length a c]
        exact List.mem_range.mp hk
      have h1 : dataAt (StateInterledger.init a b c).store
          ((restore_pending_transfers_ready a b).length + k) =
          some ((interIds a c)[k]) := by
        unfold dataAt
        rw [stateInit_store_sent a b c k hk']
      have h2 : (interIds a c)[k]? = some ((interIds a c)[k]) :=
        List.getElem?_eq_getElem hk'
      simp only [Function.comp_apply, h1, h2]
    rw [hmap, restore_sent_length, countP_range_getElem]
    exact count_interIds_one a c i hia hic

/-- Witness for C6 at concrete query results: TRANSFER_OUT = {0, 1},
HERE = {1, 2} yields exactly one restored inflight transfer, for asset 1. -/
theorem recovery_completed_witness :
    (StateInterledger.init [0, 1] [] [1, 2]).pending = 1 ∧
    (StateInterledger.init [0, 1] [] [1, 2]).transfers_sent.length = 1 ∧
    (StateInterledger.init [0, 1] [] [1, 2]).transfers_sent.countP
      (fun id => decide
        (dataAt (StateInterledger.init [0, 1] [] [1, 2]).store id = some 1)) = 1 := by
  have h := recovery_completed_spec [0, 1] [] [1, 2]
  exact ⟨h.1.trans (by decide), h.2.1.trans (by decide),
    h.2.2.2 1 (by decide) (by decide)⟩

/-- C7: after state-aware construction, the pool holds exactly one `READY`
transfer per asset ID in the intersection of the Initiator's TRANSFER_OUT
set and the Responder's NOT_HERE set, and nothing else. -/
theorem recovery_ready_spec (a b c : List Nat) :
    (StateInterledger.init a b c).transfers.length = (interIds a b).length ∧
    (∀ id ∈ (StateInterledger.init a b c).transfers,
      ∃ t : Transfer, (StateInterledger.init a b c).store[id]? = some t ∧
        t.state = State.READY ∧
        ∃ i, t.data = some i ∧ i ∈ a ∧ i ∈ b) ∧
    (∀ i, i ∈ a → i ∈ b →
      (StateInterledger.init a b c).transfers.countP
        (fun id => decide
          (dataAt (StateInterledger.init a b c).store id = some i)) = 1) := by
  refine ⟨?_, ?_, ?_⟩
  · rw [stateInit_pool]
    simp [restore_ready_length]
  · intro id hid
    rw [stateInit_pool] at hid
    have hk' : id < (interIds a b).length := by
      rw [← restore_ready_length a b]
      exact List.mem_range.mp hid
    refine ⟨_, stateInit_store_ready a b c id hk', rfl,
      (interIds a b)[id], rfl, ?_⟩
    exact mem_interIds.mp (List.getElem_mem hk')
  · intro i hia hib
    rw [stateInit_pool]
    have hcongr : ∀ k ∈ List.range (restore_pending_transfers_ready a b).length,
        (decide (dataAt (StateInterledger.init a b c).store k = some i) = true) ↔
        (decide ((interIds a b)[k]? = some i) = true) := by
      intro k hk
      have hk' : k < (interIds a b).length := by
        rw [← restore_ready_length a b]
        exact List.mem_range.mp hk
      have h1 : dataAt (StateInterledger.init a b c).store k =
          some ((interIds a b)[k]) := by
        unfold dataAt
        rw [stateInit_store_ready a b c k hk']
      have h2 : (interIds a b)[k]? = some ((interIds a b)[k]) :=
        List.getElem?_eq_getElem hk'
      rw [h1, h2]
    rw [List.countP_congr hcongr, restore_ready_length, countP_range_getElem]
    exact List.count_eq_one_of_mem (interIds_nodup a b) (mem_interIds.mpr ⟨hia, hib⟩)

/-- Witness for C7, the spec's concrete recovery scenario: Initiator
TRANSFER_OUT = {X, Y} = {0, 1}, Responder NOT_HERE = {Y, Z} = {1, 2}: the
pool holds exactly one transfer, READY, with assetId Y = 1. -/
theorem recovery_ready_witness :
    (StateInterledger.init [0, 1] [1, 2] []).transfers.length = 1 ∧
    (StateInterledger.init [0, 1] [1, 2] []).transfers.countP
      (fun id => decide
        (dataAt (StateInterledger.init [0, 1] [1, 2] []).store id = some 1)) = 1 ∧
    stateOf (StateInterledger.init [0, 1] [1, 2] []) 0 = some State.READY := by
  have h := recovery_ready_spec [0, 1] [1, 2] []
  exact ⟨h.1.trans (by decide), h.2.2 1 (by decide) (by decide), by decide⟩

lemma receive_ok_snd (s : Interledger) (ts : List Transfer) :
    (receive_transfer s (Except.ok ts)).2 =
      { s with
        store := s.store ++ ts
        , transfers := s.transfers ++ (List.range ts.length).map
            (fun k => s.store.length + k) } := by
  cases ts with
  | nil => simp [receive_transfer]
  | cons d rest => simp [receive_transfer]

lemma nextState_rank {a b : State} (h : nextState a = some b) : a.rank ≤ b.rank := by
  cases a <;> simp [nextState] at h <;> subst h <;> decide

lemma step_state_mono {s s' : Interledger} (h : Step s s') (j : Nat) (t : Transfer)
    (hg : s.store[j]? = some t) :
    ∃ t' : Transfer, s'.store[j]? = some t' ∧
      (t'.state = t.state ∨ nextState t.state = some t'.state) := by
  cases h with
  | engine he =>
    cases he with
    | ingest ts hready =>
      refine ⟨t, ?_, Or.inl rfl⟩
      rw [receive_ok_snd]
      show (s.store ++ ts)[j]? = some t
      rw [List.getElem?_append_left (List.getElem?_eq_some.mp hg).1]
      exact hg
    | dispatch =>
      rcases send_go_mono s.transfers s j t hg with h1 | ⟨hr, h1⟩
      · exact ⟨t, h1, Or.inl rfl⟩
      · exact ⟨sentVersion t, h1, Or.inr (by rw [hr]; rfl)⟩
    | collect =>
      rcases collect_go_mono s.transfers_sent s j t hg with h1 | ⟨hs, b, hfb, h1⟩
      · exact ⟨t, h1, Or.inl rfl⟩
      · exact ⟨completedVersion t b, h1, Or.inr (by rw [hs]; rfl)⟩
    | finalize =>
      rcases process_go_mono s.transfers_sent s j t hg with h1 | ⟨hs, h1⟩
      · exact ⟨t, h1, Or.inl rfl⟩
      · exact ⟨processedVersion t, h1, Or.inr (by rw [hs]; rfl)⟩
  | env he =>
    cases he with
    | mk store' hlen hadv =>
      obtain ⟨t', h1, hst, _⟩ := hadv j t hg
      exact ⟨t', h1, Or.inl hst⟩

lemma engine_processed_frozen {s s' : Interledger} (h : EngineStep s s') (j : Nat)
    (t : Transfer) (hg : s.store[j]? = some t) (ht : t.state = State.PROCESSED) :
    s'.store[j]? = some t := by
  cases h with
  | ingest ts hready =>
    rw [receive_ok_snd]
    show (s.store ++ ts)[j]? = some t
    rw [List.getElem?_append_left (List.getElem?_eq_some.mp hg).1]
    exact hg
  | dispatch =>
    rcases send_go_mono s.transfers s j t hg with h1 | ⟨hr, h1⟩
    · exact h1
    · exact absurd (ht.symm.trans hr) (by decide)
  | collect =>
    rcases collect_go_mono s.transfers_sent s j t hg with h1 | ⟨hs, _, _, h1⟩
    · exact h1
    · exact absurd (ht.symm.trans hs) (by decide)
  | finalize =>
    rcases process_go_mono s.transfers_sent s j t hg with h1 | ⟨hs, h1⟩
    · exact h1
    · exact absurd (ht.symm.trans hs) (by decide)

lemma step_rank_mono {s s' : Interledger} (h : Step s s') (j : Nat) (t : Transfer)
    (hg : s.store[j]? = some t) :
    ∃ t' : Transfer, s'.store[j]? = some t' ∧ t.state.rank ≤ t'.state.rank := by
  obtain ⟨t', h1, h2⟩ := step_state_mono h j t hg
  refine ⟨t', h1, ?_⟩
  rcases h2 with he | hn
  · exact le_of_eq (by rw [he])
  · exact nextState_rank hn

lemma reach_rank_mono {s s' : Interledger} (h : Relation.ReflTransGen Step s s')
    (j : Nat) (t : Transfer) (hg : s.store[j]? = some t) :
    ∃ t' : Transfer, s'.store[j]? = some t' ∧ t.state.rank ≤ t'.state.rank := by
  induction h with
  | refl => exact ⟨t, hg, le_refl _⟩
  | tail hab hbc ih =>
    obtain ⟨u, hu, hru⟩ := ih
    obtain ⟨t', h1, h2⟩ := step_rank_mono hbc j u hu
    exact ⟨t', h1, hru.trans h2⟩

lemma ingest_new_ready (s : Interledger) (ts : List Transfer)
    (hready : ∀ t ∈ ts, t.state = State.READY) (j : Nat) (t : Transfer)
    (hg : (receive_transfer s (Except.ok ts)).2.store[j]? = some t) :
    j < s.store.length ∨ t.state = State.READY := by
  rw [receive_ok_snd] at hg
  by_cases hj : j < s.store.length
  · exact Or.inl hj
  · right
    have hg' : (s.store ++ ts)[j]? = some t := hg
    rw [List.getElem?_append_right (Nat.le_of_not_lt hj)] at hg'
    have hmem : t ∈ ts := by
      obtain ⟨hlt, he⟩ := List.getElem?_eq_some.mp hg'
      exact he ▸ List.getElem_mem hlt
    exact hready t hmem

lemma step_append_only {s s' : Interledger} (h : Step s s') :
    (∃ u, s'.transfers = s.transfers ++ u) ∧
    (∃ v, s'.transfers_sent = s.transfers_sent ++ v) := by
  cases h with
  | engine he =>
    cases he with
    | ingest ts hready =>
      rw [receive_ok_snd]
      exact ⟨⟨(List.range ts.length).map (fun k => s.store.length + k), rfl⟩,
        ⟨[], by simp⟩⟩
    | dispatch =>
      unfold send_transfer
      refine ⟨⟨[], ?_⟩, send_go_append_exists s.transfers s⟩
      rw [(send_go_frame s.transfers s).1]
      simp
    | collect =>
      unfold transfer_result
      have hfr := collect_go_frame s.transfers_sent s
      exact ⟨⟨[], by rw [hfr.1]; simp⟩, ⟨[], by rw [hfr.2.1]; simp⟩⟩
    | finalize =>
      unfold process_result
      have hl := process_go_lists s.transfers_sent s
      exact ⟨⟨[], by rw [hl.1]; simp⟩, ⟨[], by rw [hl.2.1]; simp⟩⟩
  | env he =>
    cases he with
    | mk store' hlen hadv => exact ⟨⟨[], by simp⟩, ⟨[], by simp⟩⟩

lemma reach_sent_mem {s s' : Interledger} (h : Relation.ReflTransGen Step s s')
    (id : Nat) (hm : id ∈ s.transfers_sent) : id ∈ s'.transfers_sent := by
  induction h with
  | refl => exact hm
  | tail hab hbc ih =>
    obtain ⟨v, hv⟩ := (step_append_only hbc).2
    rw [hv]
    exact List.mem_append.mpr (Or.inl ih)

lemma step_processed_done {s s' : Interledger} (h : Step s s') (j : Nat)
    (t : Transfer) (hg : s.store[j]? = some t) (hp : t.state = State.PROCESSED)
    (hd : futDone t.future = true) :
    ∃ t' : Transfer, s'.store[j]? = some t' ∧ t'.state = State.PROCESSED ∧
      futDone t'.future = true := by
  cases h with
  | engine he => exact ⟨t, engine_processed_frozen he j t hg hp, hp, hd⟩
  | env he =>
    cases he with
    | mk store' hlen hadv =>
      obtain ⟨t', h1, hst, _, _, hfa⟩ := hadv j t hg
      refine ⟨t', h1, hst.trans hp, ?_⟩
      rcases hfa with he2 | ⟨_, hdg⟩
      · rw [← he2]
        exact hd
      · exact hdg

/-- C9: protocol states are monotone and stepwise.  Every step of a run
(engine stage or future completion) leaves each transfer's state unchanged
or advances it by exactly one protocol step; engine operations leave a
`PROCESSED` transfer entirely unchanged (no new handle, no re-dispatch);
dispatch only ever appends previously-`READY` transfers to inflight; ingest
creates transfers in state `READY`; and over any run the state rank never
decreases, so the observed state sequence of every transfer is a prefix of
READY, SENT, COMPLETED, PROCESSED from its creation state onward. -/
theorem state_monotonicity :
    (∀ s s' : Interledger, Step s s' → ∀ j : Nat, ∀ t : Transfer,
      s.store[j]? = some t → ∃ t' : Transfer, s'.store[j]? = some t' ∧
        (t'.state = t.state ∨ nextState t.state = some t'.state)) ∧
    (∀ s s' : Interledger, EngineStep s s' → ∀ j : Nat, ∀ t : Transfer,
      s.store[j]? = some t → t.state = State.PROCESSED →
      s'.store[j]? = some t) ∧
    (∀ s : Interledger, ∀ j : Nat, j ∈ (send_transfer s).transfers_sent →
      j ∈ s.transfers_sent ∨ ∃ t : Transfer, s.store[j]? = some t ∧
        t.state = State.READY) ∧
    (∀ (s : Interledger) (ts : List Transfer),
      (∀ t ∈ ts, t.state = State.READY) → ∀ j : Nat, ∀ t : Transfer,
      (receive_transfer s (Except.ok ts)).2.store[j]? = some t →
      j < s.store.length ∨ t.state = State.READY) ∧
    (∀ s s' : Interledger, Relation.ReflTransGen Step s s' →
      ∀ j : Nat, ∀ t : Transfer, s.store[j]? = some t →
      ∃ t' : Transfer, s'.store[j]? = some t' ∧
        t.state.rank ≤ t'.state.rank) := by
  refine ⟨fun s s' h j t hg => step_state_mono h j t hg,
    fun s s' h j t hg ht => engine_processed_frozen h j t hg ht,
    fun s j hj => send_go_sent_mem s.transfers s j hj,
    fun s ts hr j t hg => ingest_new_ready s ts hr j t hg,
    fun s s' h j t hg => reach_rank_mono h j t hg⟩

/-- Witness for C9 at concrete steps: dispatching `exPool` advances its
transfer by one protocol step, and a finalize run from `exFinal` never
lowers the rank of the completed transfer. -/
theorem state_monotonicity_witness :
    (∃ t' : Transfer, (send_transfer exPool).store[0]? = some t' ∧
      (t'.state = State.READY ∨ nextState State.READY = some t'.state)) ∧
    (∃ t' : Transfer, (process_result exFinal).store[0]? = some t' ∧
      State.COMPLETED.rank ≤ t'.state.rank) := by
  have h := state_monotonicity
  constructor
  · exact h.1 exPool (send_transfer exPool)
      (Step.engine (EngineStep.dispatch exPool)) 0
      { future := none, result := none, state := State.READY, data := some 7 }
      (by decide)
  · exact h.2.2.2.2 exFinal (process_result exFinal)
      (Relation.ReflTransGen.single (Step.engine (EngineStep.finalize exFinal))) 0
      { future := some (FutStatus.doneOk true), result := some true
      , state := State.COMPLETED, data := some 1 }
      (by decide)

/-- C10: the pool and inflight index lists are append-only under every step
of a run, so inflight membership persists for ever; the collect wait set
always contains the future of every inflight transfer (including
`PROCESSED` ones), and a `PROCESSED` transfer with a done handle keeps a
done handle across every step. -/
theorem lists_append_only :
    (∀ s s' : Interledger, Step s s' →
      (∃ u, s'.transfers = s.transfers ++ u) ∧
      (∃ v, s'.transfers_sent = s.transfers_sent ++ v)) ∧
    (∀ s s' : Interledger, Relation.ReflTransGen Step s s' →
      ∀ id, id ∈ s.transfers_sent → id ∈ s'.transfers_sent) ∧
    (∀ s : Interledger, ∀ id ∈ s.transfers_sent,
      ((s.store[id]?).bind Transfer.future) ∈ waitFutures s) ∧
    (∀ s s' : Interledger, Step s s' → ∀ j : Nat, ∀ t : Transfer,
      s.store[j]? = some t → t.state = State.PROCESSED →
      futDone t.future = true →
      ∃ t' : Transfer, s'.store[j]? = some t' ∧ t'.state = State.PROCESSED ∧
        futDone t'.future = true) := by
  refine ⟨fun s s' h => step_append_only h,
    fun s s' h id hm => reach_sent_mem h id hm, ?_,
    fun s s' h j t hg hp hd => step_processed_done h j t hg hp hd⟩
  intro s id hid
  unfold waitFutures
  exact List.mem_map.mpr ⟨id, hid, rfl⟩

/-- Witness for C10 at a concrete step: a dispatch from `exPool` only
appends to both lists, and the `PROCESSED` transfer of `exWait` keeps its
done handle across a collect step. -/
theorem lists_append_only_witness :
    ((∃ u, (send_transfer exPool).transfers = exPool.transfers ++ u) ∧
      (∃ v, (send_transfer exPool).transfers_sent = exPool.transfers_sent ++ v)) ∧
    (∃ t' : Transfer, (transfer_result exWait).2.store[0]? = some t' ∧
      t'.state = State.PROCESSED ∧ futDone t'.future = true) := by
  have h := lists_append_only
  constructor
  · exact h.1 exPool (send_transfer exPool) (Step.engine (EngineStep.dispatch exPool))
  · exact h.2.2.2 exWait (transfer_result exWait).2
      (Step.engine (EngineStep.collect exWait)) 0
      { future := some (FutStatus.doneOk true), result := some true
      , state := State.PROCESSED, data := some 1 }
      (by decide) (by decide) (by decide)
